import Mathlib

/-!
Verification of the graph-building pipeline of the code-navigator repository
(`code_navigator/core/parser.py`, class `CodeParser`).

The pipeline is embedded shallowly:
* a source file is its repo-relative path together with the outcome of
  reading + `ast.parse`-ing it (`none` models a read/decode/syntax failure);
* the Python AST is modelled at the granularity the parser inspects:
  top-level statements (function defs, class defs, plain imports,
  from-imports, anything else) and, inside function bodies, an expression
  tree rich enough to describe `ast.walk` searching for `ast.Call` nodes
  whose callee (`.func`) is a bare `ast.Name`;
* the NetworkX `DiGraph` is an association list of nodes (keyed by node id)
  and of edges (keyed by the (source, target) pair), since `DiGraph` keeps
  at most one node per id and one edge per ordered pair, and `add_node` /
  `add_edge` on an existing key overwrite the stored attributes;
* node identifiers: the parser builds them as strings, `rel_path` for files
  and `rel_path ++ "::" ++ name` for classes/functions.  We represent them
  by the inductive `NodeId` whose constructors record exactly the data of
  those strings (the map to strings is injective for the identifiers the
  parser can build, since declaration names are Python identifiers);
* the whole build is represented as the list of graph mutations (`Op`) it
  performs, in program order, so that "write-once" style claims about the
  build process itself are statable.
-/

namespace CodeNav

/-- Implements `os.path.basename` for the forward-slash relative paths produced by
`os.walk` + `os.path.relpath` on Linux: the component after the last slash
(the whole path when it has no slash).  Implemented by a character fold
that restarts the accumulator at every `/`. -/
def basename (p : String) : String :=
  ⟨p.data.foldl (fun acc c => if c = '/' then [] else acc ++ [c]) []⟩

/-- The prefix of a list up to (excluding) the first occurrence of `sep`. -/
def upToFirst (sep : Char) : List Char → List Char
  | [] => []
  | c :: rest => if c = sep then [] else c :: upToFirst sep rest

/-- First dotted segment of a module path: `name.split(".")[0]`, i.e. the
text before the first `.` (the whole string when it has no dot). -/
def rootSeg (s : String) : String := ⟨upToFirst '.' s.data⟩

/-- Node identifier.  `file p` stands for the string `p`; `decl p n` stands
for the string `p ++ "::" ++ n` used for both class and function nodes. -/
inductive NodeId where
  | file (path : String)
  | decl (path name : String)
deriving DecidableEq, Repr

/-- Node attribute records, one variant per `add_node` call site in
`CodeParser`.  `loc` is stored in addition to the line span, as the source
does.  Line numbers are integers (Python ints). -/
inductive NodeAttrs where
  | file (display_name : String)
  | cls (display_name : String) (file : String) (lineno end_lineno loc : Int)
      (doc : String)
  | func (display_name : String) (file : String) (lineno end_lineno loc : Int)
      (params : List String) (doc : String)
deriving DecidableEq, Repr

/-- Edge labels used by the parser. -/
inductive Label where
  | defined_in
  | file_import
  | calls
deriving DecidableEq, Repr

/-- Expression trees, as much of `ast` expressions as `_resolve_calls_basic`
inspects: `call f args` is `ast.Call` (callee `f`, arguments `args`),
`name s` is `ast.Name`, `attr v a` is `ast.Attribute`, and `many es` stands
for any other AST node with the given children (so `ast.walk` reaches
everything). -/
inductive Expr where
  | call (func : Expr) (args : List Expr)
  | name (id : String)
  | attr (value : Expr) (field : String)
  | many (children : List Expr)
deriving Repr

/-- Alias in an `ast.Import` / `ast.ImportFrom` name list: the dotted name
and the optional `as` binding. -/
structure ImportAlias where
  name : String
  asname : Option String
deriving DecidableEq, Repr

/-- Data of a top-level `ast.FunctionDef` that the parser reads: line span,
parameter names (`fnode.args.args`), docstring (`ast.get_docstring` result,
`""` if absent), and the body as an expression forest walked by
`_resolve_calls_basic`. -/
structure FuncInfo where
  lineno : Int
  end_lineno : Int
  params : List String
  doc : String
  body : List Expr
deriving Repr

/-- Data of a top-level `ast.ClassDef` that the parser reads. -/
structure ClassInfo where
  lineno : Int
  end_lineno : Int
  doc : String
deriving DecidableEq, Repr

/-- Top-level statements, at the granularity of the `isinstance` dispatch in
`_index_files`.  `fromStmt none _` is a relative `from . import ...` with no
explicit module (`stmt.module is None`). -/
inductive Stmt where
  | funcDef (name : String) (info : FuncInfo)
  | classDef (name : String) (info : ClassInfo)
  | impStmt (names : List ImportAlias)
  | fromStmt (module : Option String) (names : List ImportAlias)
  | other
deriving Repr

/-- A discovered source file: repo-relative path and the result of reading
and parsing it (`none` = open/read/decode/`ast.parse` raised). -/
structure SourceFile where
  path : String
  parse : Option (List Stmt)
deriving Repr

/-- Python-dict insert on an association list: replace in place if the key
is present (keeping its position), else append. -/
def assocUpd {κ α : Type} [DecidableEq κ] (k : κ) (v : α) :
    List (κ × α) → List (κ × α)
  | [] => [(k, v)]
  | (k₁, v₁) :: rest =>
    if k₁ = k then (k, v) :: rest else (k₁, v₁) :: assocUpd k v rest

/-- Python-dict lookup on an association list. -/
def assocGet? {κ α : Type} [DecidableEq κ] (k : κ) :
    List (κ × α) → Option α
  | [] => none
  | (k₁, v₁) :: rest => if k₁ = k then some v₁ else assocGet? k rest

/-- The graph: node dict and edge dict (NetworkX `DiGraph` keeps one node
per id and one edge per ordered pair of endpoints). -/
structure Graph where
  nodes : List (NodeId × NodeAttrs)
  edges : List ((NodeId × NodeId) × Label)
deriving Repr

def Graph.empty : Graph := ⟨[], []⟩

/-- Models `graph.add_node(id, **attrs)`: inserts, or overwrites the attributes of
an existing node (every call site passes a full attribute set). -/
def Graph.addNode (g : Graph) (id : NodeId) (a : NodeAttrs) : Graph :=
  { g with nodes := assocUpd id a g.nodes }

/-- Models `graph.add_edge(u, v, label=l)`: inserts, or overwrites the label of an
existing `(u, v)` edge. -/
def Graph.addEdge (g : Graph) (u v : NodeId) (l : Label) : Graph :=
  { g with edges := assocUpd (u, v) l g.edges }

/-- One graph mutation performed by the build (the build only ever adds). -/
inductive Op where
  | addNode (id : NodeId) (attrs : NodeAttrs)
  | addEdge (src tgt : NodeId) (label : Label)
deriving DecidableEq, Repr

def applyStep (g : Graph) : Op → Graph
  | .addNode id a => g.addNode id a
  | .addEdge u v l => g.addEdge u v l

def applyOps (g : Graph) (ops : List Op) : Graph := ops.foldl applyStep g

/-- The per-file record `ParsedFile` of the source: path, top-level function
and class tables, and the two alias-to-root-module dicts. -/
structure ParsedFile where
  path : String
  functions : List (String × FuncInfo)
  classes : List (String × ClassInfo)
  imports : List (String × String)
  from_imports : List (String × String)
deriving Repr

def ParsedFile.init (p : String) : ParsedFile := ⟨p, [], [], [], []⟩

/-- One alias of an `ast.Import`: `mod = alias.name.split(".")[0]`,
`asname = alias.asname or mod`, then `imports[asname] = mod`. -/
def recordImport (d : List (String × String)) (al : ImportAlias) :
    List (String × String) :=
  assocUpd (al.asname.getD (rootSeg al.name)) (rootSeg al.name) d

/-- One alias of an `ast.ImportFrom` whose module's root segment is `root`:
`asname = alias.asname or alias.name`, then `from_imports[asname] = root`. -/
def recordFromImport (root : String) (d : List (String × String))
    (al : ImportAlias) : List (String × String) :=
  assocUpd (al.asname.getD al.name) root d

/-- One iteration of the statement loop of `_index_files`.  Plain imports
record `alias.name.split(".")[0]` under `alias.asname or` that root segment;
from-imports with a module record the module's first dotted segment under
`alias.asname or alias.name`; module-less from-imports are skipped. -/
def analyzeStmt (pf : ParsedFile) : Stmt → ParsedFile
  | .funcDef n info => { pf with functions := assocUpd n info pf.functions }
  | .classDef n info => { pf with classes := assocUpd n info pf.classes }
  | .impStmt names =>
    { pf with imports := names.foldl recordImport pf.imports }
  | .fromStmt none _ => pf
  | .fromStmt (some m) names =>
    { pf with from_imports :=
        names.foldl (recordFromImport (rootSeg m)) pf.from_imports }
  | .other => pf

def analyzeStmts (p : String) (stmts : List Stmt) : ParsedFile :=
  stmts.foldl analyzeStmt (ParsedFile.init p)

/-- Models `_collect_files`: pre-create one file node per discovered file, in
discovery order. -/
def collectOps (fs : List SourceFile) : List Op :=
  fs.map fun f => .addNode (.file f.path) (.file f.path)

/-- The paths of the `type == "file"` nodes of a graph, in node insertion
order — what the loop heading `_index_files` iterates over. -/
def filePaths (g : Graph) : List String :=
  g.nodes.filterMap fun na =>
    match na with
    | (NodeId.file p, NodeAttrs.file _) => some p
    | _ => none

/-- Reading path `p` back from the file system: the discovered file with
that path (a path determines its file). -/
def readFile? (fs : List SourceFile) (p : String) : Option SourceFile :=
  fs.find? fun f => f.path == p

/-- One iteration of `_index_files`: re-read and parse the file at `p`; on
any failure leave `self.files` unchanged (the `continue`), on success store
the analyzed record under `p`. -/
def indexStep (fs : List SourceFile) (acc : List (String × ParsedFile))
    (p : String) : List (String × ParsedFile) :=
  match readFile? fs p with
  | none => acc
  | some f =>
    match f.parse with
    | none => acc
    | some stmts => assocUpd p (analyzeStmts p stmts) acc

/-- Models `_index_files`: iterate over the file nodes of the graph, building
`self.files`. -/
def indexFiles (fs : List SourceFile) (g : Graph) :
    List (String × ParsedFile) :=
  (filePaths g).foldl (indexStep fs) []

/-- The `self.files` dict resulting from a run of `_collect_files` followed
by `_index_files` on the discovered list `fs`. -/
def theFiles (fs : List SourceFile) : List (String × ParsedFile) :=
  indexFiles fs (applyOps Graph.empty (collectOps fs))

def locOf (start stop : Int) : Int := max 0 (stop - start + 1)

/-- Attributes of the class node `p::n`. -/
def classAttrs (p n : String) (c : ClassInfo) : NodeAttrs :=
  .cls n p c.lineno c.end_lineno (locOf c.lineno c.end_lineno) c.doc

/-- Attributes of the function node `p::n` (display name `n ++ "()"`). -/
def funcAttrs (p n : String) (f : FuncInfo) : NodeAttrs :=
  .func (n ++ "()") p f.lineno f.end_lineno (locOf f.lineno f.end_lineno)
    f.params f.doc

/-- Computes `list(pfile.imports.values()) + list(pfile.from_imports.values())`. -/
def importTargets (pf : ParsedFile) : List String :=
  pf.imports.map Prod.snd ++ pf.from_imports.map Prod.snd

/-- The inner loop of the import resolution: scan `self.files.keys()` in
order and return the first key whose basename is `m ++ ".py"`. -/
def findModuleFile (files : List (String × ParsedFile)) (m : String) :
    Option String :=
  (files.map Prod.fst).find? fun q => basename q == m ++ ".py"

/-- Edge(s) contributed by one module name of one importing file: one
`file_import` edge to the first match, none if no known file matches. -/
def importOps (files : List (String × ParsedFile)) (p m : String) :
    List Op :=
  match findModuleFile files m with
  | some q => [.addEdge (.file p) (.file q) .file_import]
  | none => []

/-- The body of `_add_nodes_and_edges` for one file: class nodes with their
`defined_in` edges, then function nodes with theirs, then the import
resolution over all referenced root module names. -/
def fileBuildOps (files : List (String × ParsedFile)) (p : String)
    (pf : ParsedFile) : List Op :=
  (pf.classes.flatMap fun e =>
    [.addNode (.decl p e.1) (classAttrs p e.1 e.2),
     .addEdge (.file p) (.decl p e.1) .defined_in])
  ++ (pf.functions.flatMap fun e =>
    [.addNode (.decl p e.1) (funcAttrs p e.1 e.2),
     .addEdge (.file p) (.decl p e.1) .defined_in])
  ++ ((importTargets pf).flatMap fun m => importOps files p m)

def buildOps (files : List (String × ParsedFile)) : List Op :=
  files.flatMap fun e => fileBuildOps files e.1 e.2

mutual
/-- All ids `t` such that some `ast.Call` node inside the expression has
`func = ast.Name(t)` — what `ast.walk` + the `isinstance` test collect. -/
def callTargets : Expr → List String
  | .call f args =>
    (match f with
     | .name id => [id]
     | _ => []) ++ callTargets f ++ callTargetsList args
  | .name _ => []
  | .attr v _ => callTargets v
  | .many es => callTargetsList es

def callTargetsList : List Expr → List String
  | [] => []
  | e :: es => callTargets e ++ callTargetsList es
end

/-- Models `_resolve_calls_basic` for one file: for each top-level function, every
called bare name that is a key of the same file's function table yields a
`calls` edge. -/
def fileCallOps (p : String) (pf : ParsedFile) : List Op :=
  pf.functions.flatMap fun e =>
    (callTargetsList e.2.body).flatMap fun t =>
      if (assocGet? t pf.functions).isSome then
        [.addEdge (.decl p e.1) (.decl p t) .calls]
      else []

def callOps (files : List (String × ParsedFile)) : List Op :=
  files.flatMap fun e => fileCallOps e.1 e.2

/-- The full trace of graph mutations of `CodeParser.parse`, in program
order: collect, then `_add_nodes_and_edges`, then `_resolve_calls_basic`
(`_index_files` touches no graph state). -/
def parseOps (fs : List SourceFile) : List Op :=
  collectOps fs ++ buildOps (theFiles fs) ++ callOps (theFiles fs)

/-- Models `CodeParser.parse`: the graph built from a discovered file list. -/
def parse (fs : List SourceFile) : Graph :=
  applyOps Graph.empty (parseOps fs)

/-- Compatibility of two graph mutations: writes to the same key store the
same value.  A trace is write-once exactly when all its pairs (in program
order) are compatible. -/
def compatOp (x y : Op) : Bool :=
  match x, y with
  | .addNode i a, .addNode j b => decide (i = j → a = b)
  | .addEdge u v l, .addEdge u₁ v₁ l₁ => decide ((u, v) = (u₁, v₁) → l = l₁)
  | _, _ => true

/-- A trace never changes a stored node attribute set or edge label after
first creation (the op language has no removals, so "never removed" holds
by construction). -/
def writeOnce : List Op → Bool
  | [] => true
  | op :: rest => rest.all (fun op₁ => compatOp op op₁) && writeOnce rest

/-- The record `self.files` would hold for path `p`: read it, parse it,
analyze it; `none` when the path is unknown or parsing fails. -/
def fileRecord (fs : List SourceFile) (p : String) : Option ParsedFile :=
  match readFile? fs p with
  | none => none
  | some f =>
    match f.parse with
    | none => none
    | some stmts => some (analyzeStmts p stmts)

/-- Final attributes of declaration node `p::n` of a record: the function
table wins because `_add_nodes_and_edges` adds function nodes after class
nodes and `add_node` overwrites. -/
def declAttrsOf (p n : String) (pf : ParsedFile) : Option NodeAttrs :=
  match assocGet? n pf.functions with
  | some fi => some (funcAttrs p n fi)
  | none => (assocGet? n pf.classes).map (classAttrs p n)

/-- Whether a record declares name `n` at top level (class or function). -/
def declHas (pf : ParsedFile) (n : String) : Bool :=
  (assocGet? n pf.functions).isSome || (assocGet? n pf.classes).isSome

/-- Whether the body of top-level function `f` of the record contains a
direct bare-name call to `g`. -/
def hasCallTo (pf : ParsedFile) (f g : String) : Bool :=
  match assocGet? f pf.functions with
  | some fi => (callTargetsList fi.body).contains g
  | none => false

def NodeAttrs.isDecl : NodeAttrs → Bool
  | .file _ => false
  | _ => true

def NodeAttrs.fileOf : NodeAttrs → Option String
  | .file _ => none
  | .cls _ f _ _ _ _ => some f
  | .func _ f _ _ _ _ _ => some f

/-- The attribute set a node id ends up with after a full build (the
function table shadows the class table, matching the add order of
`_add_nodes_and_edges`); the `.file p` fallback is never reached for ids the
build writes. -/
def nodeValSpec (fs : List SourceFile) : NodeId → NodeAttrs
  | .file p => .file p
  | .decl p n =>
    match assocGet? p (theFiles fs) with
    | some pf =>
      match assocGet? n pf.functions with
      | some fi => funcAttrs p n fi
      | none =>
        match assocGet? n pf.classes with
        | some ci => classAttrs p n ci
        | none => .file p
    | none => .file p

/-- The label any build-stage edge between two ids carries, determined by
the shape of the endpoints. -/
def edgeLabelSpec : NodeId × NodeId → Label
  | (NodeId.file _, NodeId.decl _ _) => .defined_in
  | (NodeId.file _, NodeId.file _) => .file_import
  | _ => .calls

/-! ### Concrete repositories used as test inputs -/

/-- A repository where `a/util.py` is discovered but fails to parse, and
`main.py` does `import util`. -/
def exC1fs : List SourceFile :=
  [⟨"a/util.py", none⟩,
   ⟨"main.py", some [Stmt.impStmt [⟨"util", none⟩]]⟩]

/-- Two enumerations of the same repository: two files named `util.py` in
different directories plus `main.py` doing `import util`. -/
def exC2fsA : List SourceFile :=
  [⟨"a/util.py", some []⟩, ⟨"b/util.py", some []⟩,
   ⟨"main.py", some [Stmt.impStmt [⟨"util", none⟩]]⟩]

def exC2fsB : List SourceFile :=
  [⟨"b/util.py", some []⟩, ⟨"a/util.py", some []⟩,
   ⟨"main.py", some [Stmt.impStmt [⟨"util", none⟩]]⟩]

/-- Two enumerations of a repository with distinct basenames. -/
def exC2wA : List SourceFile := [⟨"a.py", some []⟩, ⟨"b.py", some []⟩]

def exC2wB : List SourceFile := [⟨"b.py", some []⟩, ⟨"a.py", some []⟩]

/-- One file that fails to parse next to one that parses. -/
def exC3fs : List SourceFile :=
  [⟨"bad.py", none⟩,
   ⟨"good.py", some [Stmt.funcDef "g" ⟨1, 2, [], "", []⟩]⟩]

/-- A file declaring a top-level class and a top-level function that share
the name `Foo`. -/
def exC4fs : List SourceFile :=
  [⟨"a.py", some [Stmt.classDef "Foo" ⟨1, 2, ""⟩,
     Stmt.funcDef "Foo" ⟨3, 4, [], "", []⟩]⟩]

/-- A file declaring a class and a function with distinct names. -/
def exC4w : List SourceFile :=
  [⟨"a.py", some [Stmt.classDef "A" ⟨1, 2, ""⟩,
     Stmt.funcDef "b" ⟨3, 4, [], "", []⟩]⟩]

/-- A file declaring a single top-level function. -/
def exC5fs : List SourceFile :=
  [⟨"a.py", some [Stmt.funcDef "f" ⟨1, 2, [], "", []⟩]⟩]

/-- A file where top-level `f` calls top-level `g`. -/
def exC6fs : List SourceFile :=
  [⟨"a.py", some [Stmt.funcDef "f" ⟨1, 3, [], "", [.call (.name "g") []]⟩,
     Stmt.funcDef "g" ⟨4, 5, [], "", []⟩]⟩]

/-- A file whose function `loop` calls itself. -/
def exC9fs : List SourceFile :=
  [⟨"a.py", some [Stmt.funcDef "loop"
     ⟨1, 2, [], "", [.call (.name "loop") []]⟩]⟩]

/-- A file `util.py` that does `import util` (its own basename). -/
def exC10fs : List SourceFile :=
  [⟨"util.py", some [Stmt.impStmt [⟨"util", none⟩]]⟩]

/-! ### Association-list lemmas -/

theorem assocGet?_assocUpd {κ α : Type} [DecidableEq κ] (k k₁ : κ) (v : α)
    (d : List (κ × α)) :
    assocGet? k (assocUpd k₁ v d) =
      if k₁ = k then some v else assocGet? k d := by
  induction d with
  | nil => simp [assocUpd, assocGet?]
  | cons e rest ih =>
    obtain ⟨k₂, v₂⟩ := e
    by_cases h₂ : k₂ = k₁
    · subst h₂
      rw [assocUpd, if_pos rfl]
      by_cases h : k₂ = k
      · subst h
        simp [assocGet?]
      · simp [assocGet?, h]
    · rw [assocUpd, if_neg h₂]
      by_cases h : k₂ = k
      · subst h
        have h₁₂ : ¬k₁ = k₂ := fun he => h₂ he.symm
        simp [assocGet?, h₁₂]
      · simp [assocGet?, h, ih]

theorem assocGet?_eq_none_iff {κ α : Type} [DecidableEq κ] (k : κ)
    (d : List (κ × α)) :
    assocGet? k d = none ↔ k ∉ d.map Prod.fst := by
  induction d with
  | nil => simp [assocGet?]
  | cons e rest ih =>
    obtain ⟨k₁, v₁⟩ := e
    by_cases h : k₁ = k
    · subst h
      simp [assocGet?]
    · have h' : ¬k = k₁ := fun he => h he.symm
      simp [assocGet?, h, h', ih]

theorem mem_keys_of_assocGet?_eq_some {κ α : Type} [DecidableEq κ] {k : κ}
    {v : α} {d : List (κ × α)} (h : assocGet? k d = some v) :
    k ∈ d.map Prod.fst := by
  by_contra hk
  rw [← assocGet?_eq_none_iff (α := α)] at hk
  rw [h] at hk
  exact Option.noConfusion hk

theorem mem_of_assocGet?_eq_some {κ α : Type} [DecidableEq κ] {k : κ} {v : α}
    {d : List (κ × α)} (h : assocGet? k d = some v) : (k, v) ∈ d := by
  induction d with
  | nil => simp [assocGet?] at h
  | cons e rest ih =>
    obtain ⟨k₁, v₁⟩ := e
    by_cases hk : k₁ = k
    · subst hk
      simp [assocGet?] at h
      simp [h]
    · simp [assocGet?, hk] at h
      simp [ih h]

theorem assocGet?_eq_some_of_mem {κ α : Type} [DecidableEq κ] {k : κ} {v : α}
    {d : List (κ × α)} (hnd : (d.map Prod.fst).Nodup) (h : (k, v) ∈ d) :
    assocGet? k d = some v := by
  induction d with
  | nil => simp at h
  | cons e rest ih =>
    obtain ⟨k₁, v₁⟩ := e
    simp only [List.map_cons, List.nodup_cons] at hnd
    rcases List.mem_cons.mp h with h₁ | h₁
    · cases h₁
      simp [assocGet?]
    · have hk : k₁ ≠ k := by
        intro he
        subst he
        exact hnd.1 (List.mem_map_of_mem Prod.fst h₁)
      simp [assocGet?, hk, ih hnd.2 h₁]

theorem mem_iff_assocGet? {κ α : Type} [DecidableEq κ] {k : κ} {v : α}
    {d : List (κ × α)} (hnd : (d.map Prod.fst).Nodup) :
    (k, v) ∈ d ↔ assocGet? k d = some v :=
  ⟨assocGet?_eq_some_of_mem hnd, mem_of_assocGet?_eq_some⟩

theorem assocUpd_keys_mem {κ α : Type} [DecidableEq κ] (k k₀ : κ) (v : α)
    (d : List (κ × α)) :
    k₀ ∈ (assocUpd k v d).map Prod.fst ↔ k₀ ∈ d.map Prod.fst ∨ k₀ = k := by
  induction d with
  | nil => simp [assocUpd]
  | cons e rest ih =>
    obtain ⟨k₁, v₁⟩ := e
    by_cases h : k₁ = k
    · subst h
      have hstep : assocUpd k₁ v ((k₁, v₁) :: rest) = (k₁, v) :: rest := by
        simp [assocUpd]
      rw [hstep]
      simp only [List.map_cons, List.mem_cons]
      tauto
    · have hstep : assocUpd k v ((k₁, v₁) :: rest) =
          (k₁, v₁) :: assocUpd k v rest := by
        simp [assocUpd, h]
      rw [hstep]
      simp only [List.map_cons, List.mem_cons, ih]
      tauto

theorem assocUpd_keysNodup {κ α : Type} [DecidableEq κ] (k : κ) (v : α)
    (d : List (κ × α)) (hnd : (d.map Prod.fst).Nodup) :
    ((assocUpd k v d).map Prod.fst).Nodup := by
  induction d with
  | nil => simp [assocUpd]
  | cons e rest ih =>
    obtain ⟨k₁, v₁⟩ := e
    simp only [List.map_cons, List.nodup_cons] at hnd
    by_cases h : k₁ = k
    · subst h
      have hstep : assocUpd k₁ v ((k₁, v₁) :: rest) = (k₁, v) :: rest := by
        simp [assocUpd]
      rw [hstep]
      simp only [List.map_cons, List.nodup_cons]
      exact ⟨hnd.1, hnd.2⟩
    · have hstep : assocUpd k v ((k₁, v₁) :: rest) =
          (k₁, v₁) :: assocUpd k v rest := by
        simp [assocUpd, h]
      rw [hstep]
      simp only [List.map_cons, List.nodup_cons]
      refine ⟨?_, ih hnd.2⟩
      rw [assocUpd_keys_mem]
      rintro (hmem | he)
      · exact hnd.1 hmem
      · exact h he

theorem nodup_map_inj {α β : Type} {g : α → β} {L : List α}
    (h : (L.map g).Nodup) :
    ∀ a ∈ L, ∀ b ∈ L, g a = g b → a = b := by
  induction L with
  | nil => simp
  | cons x xs ih =>
    simp only [List.map_cons, List.nodup_cons] at h
    intro a ha b hb hab
    rcases List.mem_cons.mp ha with ha₁ | ha₁ <;>
      rcases List.mem_cons.mp hb with hb₁ | hb₁
    · rw [ha₁, hb₁]
    · subst ha₁
      have hm : g b ∈ List.map g xs := List.mem_map_of_mem g hb₁
      rw [← hab] at hm
      exact absurd hm h.1
    · subst hb₁
      have hm : g a ∈ List.map g xs := List.mem_map_of_mem g ha₁
      rw [hab] at hm
      exact absurd hm h.1
    · exact ih h.2 a ha₁ b hb₁ hab

theorem find?_congr_of_unique {α : Type} {p : α → Bool} {L₁ L₂ : List α}
    (hmem : ∀ x, x ∈ L₁ ↔ x ∈ L₂)
    (huniq : ∀ a ∈ L₁, ∀ b ∈ L₁, p a = true → p b = true → a = b) :
    L₁.find? p = L₂.find? p := by
  cases h₁ : L₁.find? p with
  | some a =>
    have ha := List.find?_some h₁
    have hma := List.mem_of_find?_eq_some h₁
    cases h₂ : L₂.find? p with
    | some b =>
      have hb := List.find?_some h₂
      have hmb := List.mem_of_find?_eq_some h₂
      rw [huniq a hma b ((hmem b).mpr hmb) ha hb]
    | none =>
      exact absurd ha (by
        have := List.find?_eq_none.mp h₂ a ((hmem a).mp hma)
        simpa using this)
  | none =>
    cases h₂ : L₂.find? p with
    | some b =>
      have hb := List.find?_some h₂
      have hmb := List.mem_of_find?_eq_some h₂
      exact absurd hb (by
        have := List.find?_eq_none.mp h₁ b ((hmem b).mpr hmb)
        simpa using this)
    | none => rfl

/-! ### `Option.orElse` helpers -/

theorem orElse_none_right {α : Type} (o : Option α) :
    (o.orElse fun _ => none) = o := by cases o <;> rfl

theorem none_orElse' {α : Type} (f : Unit → Option α) :
    (Option.none.orElse f) = f () := rfl

theorem some_orElse' {α : Type} (a : α) (f : Unit → Option α) :
    ((some a).orElse f) = some a := rfl

theorem orElse_assoc {α : Type} (o₁ o₂ o₃ : Option α) :
    ((o₁.orElse fun _ => o₂).orElse fun _ => o₃) =
      o₁.orElse fun _ => o₂.orElse fun _ => o₃ := by
  cases o₁ <;> rfl

/-! ### Last-write reasoning over operation traces -/

/-- The node-attribute value written by an op to a given node id. -/
def nodeWriteOf (id : NodeId) (op : Op) : Option NodeAttrs :=
  match op with
  | .addNode i a => if i = id then some a else none
  | _ => none

/-- The label written by an op to a given edge key. -/
def edgeWriteOf (k : NodeId × NodeId) (op : Op) : Option Label :=
  match op with
  | .addEdge u v l => if (u, v) = k then some l else none
  | _ => none

/-- The last value a trace writes through the given write-extractor. -/
def lastWrite {β : Type} (wof : Op → Option β) : List Op → Option β
  | [] => none
  | op :: rest => (lastWrite wof rest).orElse fun _ => wof op

theorem lastWrite_append {β : Type} (wof : Op → Option β) (a b : List Op) :
    lastWrite wof (a ++ b) =
      (lastWrite wof b).orElse fun _ => lastWrite wof a := by
  induction a with
  | nil => simp [lastWrite, orElse_none_right]
  | cons op rest ih => simp [lastWrite, ih, orElse_assoc]

theorem lastWrite_eq_none_iff {β : Type} (wof : Op → Option β)
    (ops : List Op) :
    lastWrite wof ops = none ↔ ∀ op ∈ ops, wof op = none := by
  induction ops with
  | nil => simp [lastWrite]
  | cons op rest ih =>
    rw [lastWrite]
    cases h : lastWrite wof rest with
    | some b =>
      rw [some_orElse']
      constructor
      · intro hc
        exact absurd hc (by simp)
      · intro hall
        have hn : lastWrite wof rest = none :=
          ih.mpr fun o ho => hall o (List.mem_cons_of_mem _ ho)
        rw [h] at hn
        exact absurd hn (by simp)
    | none =>
      rw [none_orElse']
      constructor
      · intro hop o ho
        rcases List.mem_cons.mp ho with ho₁ | ho₁
        · rw [ho₁]
          exact hop
        · exact (ih.mp h) o ho₁
      · intro hall
        exact hall op (List.mem_cons_self _ _)

theorem lastWrite_mem {β : Type} {wof : Op → Option β} {ops : List Op}
    {b : β} (h : lastWrite wof ops = some b) : ∃ op ∈ ops, wof op = some b := by
  induction ops with
  | nil => simp [lastWrite] at h
  | cons op rest ih =>
    rw [lastWrite] at h
    cases h₁ : lastWrite wof rest with
    | some c =>
      rw [h₁, some_orElse'] at h
      obtain ⟨o, ho, hw⟩ := ih (h₁.trans h)
      exact ⟨o, List.mem_cons_of_mem _ ho, hw⟩
    | none =>
      rw [h₁, none_orElse'] at h
      exact ⟨op, List.mem_cons_self _ _, h⟩

theorem lastWrite_eq_some_iff_of_const {β : Type} {wof : Op → Option β}
    {ops : List Op} {b : β}
    (hconst : ∀ op ∈ ops, ∀ c, wof op = some c → c = b) :
    lastWrite wof ops = some b ↔ ∃ op ∈ ops, wof op = some b := by
  constructor
  · exact lastWrite_mem
  · intro ⟨op, hop, hw⟩
    cases h : lastWrite wof ops with
    | some c =>
      obtain ⟨o, ho, hwo⟩ := lastWrite_mem h
      rw [hconst o ho c hwo]
    | none =>
      exact absurd hw (by rw [(lastWrite_eq_none_iff wof ops).mp h op hop]; simp)

/-! ### Graph lookups after applying a trace -/

theorem applyOps_nodes_get (g : Graph) (ops : List Op) (id : NodeId) :
    assocGet? id (applyOps g ops).nodes =
      (lastWrite (nodeWriteOf id) ops).orElse fun _ =>
        assocGet? id g.nodes := by
  induction ops generalizing g with
  | nil => simp [applyOps, lastWrite, none_orElse']
  | cons op rest ih =>
    have hstep : assocGet? id (applyStep g op).nodes =
        (nodeWriteOf id op).orElse fun _ => assocGet? id g.nodes := by
      cases op with
      | addNode i a =>
        simp only [applyStep, Graph.addNode, nodeWriteOf]
        rw [assocGet?_assocUpd]
        by_cases h : i = id <;> simp [h, none_orElse', some_orElse']
      | addEdge u v l => simp [applyStep, Graph.addEdge, nodeWriteOf, none_orElse']
    calc assocGet? id (applyOps g (op :: rest)).nodes
        = assocGet? id (applyOps (applyStep g op) rest).nodes := rfl
      _ = (lastWrite (nodeWriteOf id) rest).orElse fun _ =>
            assocGet? id (applyStep g op).nodes := ih (applyStep g op)
      _ = (lastWrite (nodeWriteOf id) rest).orElse fun _ =>
            (nodeWriteOf id op).orElse fun _ => assocGet? id g.nodes := by
            rw [hstep]
      _ = (lastWrite (nodeWriteOf id) (op :: rest)).orElse fun _ =>
            assocGet? id g.nodes := by
            rw [lastWrite, ← orElse_assoc]

theorem applyOps_edges_get (g : Graph) (ops : List Op) (k : NodeId × NodeId) :
    assocGet? k (applyOps g ops).edges =
      (lastWrite (edgeWriteOf k) ops).orElse fun _ =>
        assocGet? k g.edges := by
  induction ops generalizing g with
  | nil => simp [applyOps, lastWrite, none_orElse']
  | cons op rest ih =>
    have hstep : assocGet? k (applyStep g op).edges =
        (edgeWriteOf k op).orElse fun _ => assocGet? k g.edges := by
      cases op with
      | addNode i a => simp [applyStep, Graph.addNode, edgeWriteOf, none_orElse']
      | addEdge u v l =>
        simp only [applyStep, Graph.addEdge, edgeWriteOf]
        rw [assocGet?_assocUpd]
        by_cases h : (u, v) = k <;> simp [h, none_orElse', some_orElse']
    calc assocGet? k (applyOps g (op :: rest)).edges
        = assocGet? k (applyOps (applyStep g op) rest).edges := rfl
      _ = (lastWrite (edgeWriteOf k) rest).orElse fun _ =>
            assocGet? k (applyStep g op).edges := ih (applyStep g op)
      _ = (lastWrite (edgeWriteOf k) rest).orElse fun _ =>
            (edgeWriteOf k op).orElse fun _ => assocGet? k g.edges := by
            rw [hstep]
      _ = (lastWrite (edgeWriteOf k) (op :: rest)).orElse fun _ =>
            assocGet? k g.edges := by
            rw [lastWrite, ← orElse_assoc]

/-- Lookup in the final graph is the last write of the build trace. -/
theorem parse_nodes_get (fs : List SourceFile) (id : NodeId) :
    assocGet? id (parse fs).nodes =
      lastWrite (nodeWriteOf id) (parseOps fs) := by
  rw [parse, applyOps_nodes_get]
  simp [Graph.empty, assocGet?, orElse_none_right]

theorem parse_edges_get (fs : List SourceFile) (k : NodeId × NodeId) :
    assocGet? k (parse fs).edges =
      lastWrite (edgeWriteOf k) (parseOps fs) := by
  rw [parse, applyOps_edges_get]
  simp [Graph.empty, assocGet?, orElse_none_right]

/-! ### Key-uniqueness invariants of the built graph -/

theorem applyOps_nodes_keysNodup (g : Graph) (ops : List Op)
    (h : (g.nodes.map Prod.fst).Nodup) :
    (((applyOps g ops).nodes).map Prod.fst).Nodup := by
  induction ops generalizing g with
  | nil => exact h
  | cons op rest ih =>
    refine ih (applyStep g op) ?_
    cases op with
    | addNode i a => exact assocUpd_keysNodup i a g.nodes h
    | addEdge u v l => exact h

theorem applyOps_edges_keysNodup (g : Graph) (ops : List Op)
    (h : (g.edges.map Prod.fst).Nodup) :
    (((applyOps g ops).edges).map Prod.fst).Nodup := by
  induction ops generalizing g with
  | nil => exact h
  | cons op rest ih =>
    refine ih (applyStep g op) ?_
    cases op with
    | addNode i a => exact h
    | addEdge u v l => exact assocUpd_keysNodup (u, v) l g.edges h

theorem parse_nodes_keysNodup (fs : List SourceFile) :
    (((parse fs).nodes).map Prod.fst).Nodup :=
  applyOps_nodes_keysNodup Graph.empty (parseOps fs) (by simp [Graph.empty])

theorem parse_edges_keysNodup (fs : List SourceFile) :
    (((parse fs).edges).map Prod.fst).Nodup :=
  applyOps_edges_keysNodup Graph.empty (parseOps fs) (by simp [Graph.empty])

/-! ### The file-node list after `_collect_files` -/

theorem lastWrite_collectOps_file (fs : List SourceFile) (p : String) :
    lastWrite (nodeWriteOf (NodeId.file p)) (collectOps fs) =
      if ∃ f ∈ fs, f.path = p then some (NodeAttrs.file p) else none := by
  have hconst : ∀ op ∈ collectOps fs, ∀ c,
      nodeWriteOf (NodeId.file p) op = some c → c = NodeAttrs.file p := by
    intro op hop c hw
    obtain ⟨f, _, rfl⟩ := List.mem_map.mp hop
    simp only [nodeWriteOf] at hw
    by_cases h : NodeId.file f.path = NodeId.file p
    · rw [if_pos h] at hw
      obtain rfl : f.path = p := by injection h
      exact (Option.some.injEq .. ▸ hw).symm
    · rw [if_neg h] at hw
      exact Option.noConfusion hw
  by_cases hex : ∃ f ∈ fs, f.path = p
  · rw [if_pos hex]
    rw [lastWrite_eq_some_iff_of_const hconst]
    obtain ⟨f, hf, rfl⟩ := hex
    refine ⟨Op.addNode (.file f.path) (.file f.path), ?_, ?_⟩
    · exact List.mem_map.mpr ⟨f, hf, rfl⟩
    · simp [nodeWriteOf]
  · rw [if_neg hex]
    rw [lastWrite_eq_none_iff]
    intro op hop
    obtain ⟨f, hf, rfl⟩ := List.mem_map.mp hop
    simp only [nodeWriteOf]
    rw [if_neg]
    intro h
    obtain rfl : f.path = p := by injection h
    exact hex ⟨f, hf, rfl⟩

theorem collect_file_get (fs : List SourceFile) (p : String) :
    assocGet? (NodeId.file p)
        (applyOps Graph.empty (collectOps fs)).nodes =
      if ∃ f ∈ fs, f.path = p then some (NodeAttrs.file p) else none := by
  rw [applyOps_nodes_get]
  simp only [Graph.empty, assocGet?, orElse_none_right]
  exact lastWrite_collectOps_file fs p

theorem mem_filePaths (g : Graph)
    (hnd : (g.nodes.map Prod.fst).Nodup) (p : String) :
    p ∈ filePaths g ↔
      ∃ dn, assocGet? (NodeId.file p) g.nodes = some (NodeAttrs.file dn) := by
  rw [filePaths, List.mem_filterMap]
  constructor
  · rintro ⟨⟨id, a⟩, hmem, hmatch⟩
    cases id with
    | decl q n => cases a <;> simp at hmatch
    | file q =>
      cases a with
      | file dn =>
        simp at hmatch
        subst hmatch
        exact ⟨dn, assocGet?_eq_some_of_mem hnd hmem⟩
      | cls _ _ _ _ _ _ => simp at hmatch
      | func _ _ _ _ _ _ _ => simp at hmatch
  · rintro ⟨dn, hget⟩
    exact ⟨(NodeId.file p, NodeAttrs.file dn),
      mem_of_assocGet?_eq_some hget, rfl⟩

theorem mem_filePaths_g1 (fs : List SourceFile) (p : String) :
    p ∈ filePaths (applyOps Graph.empty (collectOps fs)) ↔
      ∃ f ∈ fs, f.path = p := by
  rw [mem_filePaths _ (applyOps_nodes_keysNodup Graph.empty _
    (by simp [Graph.empty])) p, collect_file_get]
  by_cases hex : ∃ f ∈ fs, f.path = p
  · simp [hex]
  · simp [hex]

/-! ### Characterizing `self.files` -/

theorem indexStep_get_self (fs : List SourceFile)
    (acc : List (String × ParsedFile)) (p : String) :
    assocGet? p (indexStep fs acc p) =
      (fileRecord fs p).orElse fun _ => assocGet? p acc := by
  cases hr : readFile? fs p with
  | none => simp [indexStep, fileRecord, hr, none_orElse']
  | some f =>
    cases hp : f.parse with
    | none => simp [indexStep, fileRecord, hr, hp, none_orElse']
    | some stmts =>
      simp [indexStep, fileRecord, hr, hp, assocGet?_assocUpd, some_orElse']

theorem indexStep_get_ne (fs : List SourceFile)
    (acc : List (String × ParsedFile)) (p q : String) (h : q ≠ p) :
    assocGet? p (indexStep fs acc q) = assocGet? p acc := by
  cases hr : readFile? fs q with
  | none => simp [indexStep, hr]
  | some f =>
    cases hp : f.parse with
    | none => simp [indexStep, hr, hp]
    | some stmts => simp [indexStep, hr, hp, assocGet?_assocUpd, if_neg h]

theorem indexStep_keysNodup (fs : List SourceFile)
    (acc : List (String × ParsedFile)) (p : String)
    (h : (acc.map Prod.fst).Nodup) :
    ((indexStep fs acc p).map Prod.fst).Nodup := by
  cases hr : readFile? fs p with
  | none => simpa [indexStep, hr] using h
  | some f =>
    cases hp : f.parse with
    | none => simpa [indexStep, hr, hp] using h
    | some stmts =>
      simp only [indexStep, hr, hp]
      exact assocUpd_keysNodup _ _ _ h

theorem fold_indexStep_keysNodup (fs : List SourceFile) (L : List String)
    (acc : List (String × ParsedFile)) (h : (acc.map Prod.fst).Nodup) :
    ((L.foldl (indexStep fs) acc).map Prod.fst).Nodup := by
  induction L generalizing acc with
  | nil => exact h
  | cons p L ih => exact ih _ (indexStep_keysNodup fs acc p h)

theorem theFiles_keysNodup (fs : List SourceFile) :
    ((theFiles fs).map Prod.fst).Nodup :=
  fold_indexStep_keysNodup fs _ [] (by simp)

theorem fold_indexStep_get (fs : List SourceFile) (L : List String)
    (acc : List (String × ParsedFile)) (p : String) :
    assocGet? p (L.foldl (indexStep fs) acc) =
      if p ∈ L then (fileRecord fs p).orElse fun _ => assocGet? p acc
      else assocGet? p acc := by
  induction L generalizing acc with
  | nil => simp
  | cons q L ih =>
    rw [List.foldl_cons, ih]
    by_cases hq : q = p
    · subst hq
      rw [indexStep_get_self]
      have hmem : q ∈ q :: L := List.mem_cons_self _ _
      rw [if_pos hmem]
      by_cases hL : q ∈ L
      · rw [if_pos hL]
        cases fileRecord fs q <;> simp [some_orElse', none_orElse']
      · rw [if_neg hL]
    · rw [indexStep_get_ne fs acc p q hq]
      have hiff : p ∈ q :: L ↔ p ∈ L := by
        constructor
        · intro hc
          rcases List.mem_cons.mp hc with h₁ | h₁
          · exact absurd h₁.symm hq
          · exact h₁
        · exact List.mem_cons_of_mem q
      by_cases hp : p ∈ L
      · rw [if_pos hp, if_pos (hiff.mpr hp)]
      · rw [if_neg hp, if_neg fun hc => hp (hiff.mp hc)]

theorem theFiles_get (fs : List SourceFile) (p : String) :
    assocGet? p (theFiles fs) = fileRecord fs p := by
  rw [theFiles, indexFiles, fold_indexStep_get]
  by_cases hmem : p ∈ filePaths (applyOps Graph.empty (collectOps fs))
  · rw [if_pos hmem]
    simp [assocGet?, orElse_none_right]
  · rw [if_neg hmem]
    have hrec : fileRecord fs p = none := by
      rw [fileRecord]
      have hnone : readFile? fs p = none := by
        rw [readFile?, List.find?_eq_none]
        intro f hf
        simp only [beq_iff_eq]
        intro he
        exact hmem ((mem_filePaths_g1 fs p).mpr ⟨f, hf, he⟩)
      rw [hnone]
    rw [hrec]
    simp [assocGet?]

/-- A key of `self.files` is a discovered path. -/
theorem theFiles_key_mem_paths (fs : List SourceFile) {p : String}
    {pf : ParsedFile} (h : assocGet? p (theFiles fs) = some pf) :
    ∃ f ∈ fs, f.path = p ∧ f.parse.isSome := by
  rw [theFiles_get] at h
  cases hr : readFile? fs p with
  | none => simp [fileRecord, hr] at h
  | some f =>
    cases hp : f.parse with
    | none => simp [fileRecord, hr, hp] at h
    | some stmts =>
      have hr' : fs.find? (fun f => f.path == p) = some f := by
        rw [readFile?] at hr
        exact hr
      refine ⟨f, List.mem_of_find?_eq_some hr', ?_, by simp [hp]⟩
      have hpred := List.find?_some hr'
      simpa [beq_iff_eq] using hpred

/-! ### Membership shapes of the three op-list stages -/

theorem mem_collectOps {fs : List SourceFile} {op : Op} :
    op ∈ collectOps fs ↔
      ∃ f ∈ fs, op = Op.addNode (.file f.path) (.file f.path) := by
  rw [collectOps, List.mem_map]
  constructor
  · rintro ⟨f, hf, rfl⟩
    exact ⟨f, hf, rfl⟩
  · rintro ⟨f, hf, rfl⟩
    exact ⟨f, hf, rfl⟩

theorem mem_importOps {all : List (String × ParsedFile)} {q m : String}
    {op : Op} :
    op ∈ importOps all q m ↔
      ∃ r, findModuleFile all m = some r ∧
        op = Op.addEdge (.file q) (.file r) .file_import := by
  cases hf : findModuleFile all m <;> simp [importOps, hf]

theorem mem_ite_singleton {α : Type} {c : Prop} [Decidable c] {x op : α} :
    (op ∈ if c then [x] else []) ↔ c ∧ op = x := by
  by_cases h : c <;> simp [h]

theorem mem_fileBuildOps {all : List (String × ParsedFile)} {q : String}
    {pf : ParsedFile} {op : Op} :
    op ∈ fileBuildOps all q pf ↔
      (∃ e ∈ pf.classes,
        op = Op.addNode (.decl q e.1) (classAttrs q e.1 e.2) ∨
        op = Op.addEdge (.file q) (.decl q e.1) .defined_in) ∨
      (∃ e ∈ pf.functions,
        op = Op.addNode (.decl q e.1) (funcAttrs q e.1 e.2) ∨
        op = Op.addEdge (.file q) (.decl q e.1) .defined_in) ∨
      (∃ m ∈ importTargets pf, ∃ r, findModuleFile all m = some r ∧
        op = Op.addEdge (.file q) (.file r) .file_import) := by
  simp only [fileBuildOps, List.mem_append, List.mem_flatMap, mem_importOps,
    List.mem_cons, List.not_mem_nil, or_false]
  exact or_assoc

theorem mem_fileCallOps {q : String} {pf : ParsedFile} {op : Op} :
    op ∈ fileCallOps q pf ↔
      ∃ e ∈ pf.functions, ∃ t ∈ callTargetsList e.2.body,
        (assocGet? t pf.functions).isSome = true ∧
        op = Op.addEdge (.decl q e.1) (.decl q t) .calls := by
  simp only [fileCallOps, List.mem_flatMap, mem_ite_singleton]

/-! ### Stage-level vanishing of irrelevant writes -/

theorem collectOps_edge_none (fs : List SourceFile) (k : NodeId × NodeId) :
    lastWrite (edgeWriteOf k) (collectOps fs) = none := by
  rw [lastWrite_eq_none_iff]
  intro op hop
  obtain ⟨f, _, rfl⟩ := mem_collectOps.mp hop
  rfl

theorem collectOps_node_decl_none (fs : List SourceFile) (p n : String) :
    lastWrite (nodeWriteOf (NodeId.decl p n)) (collectOps fs) = none := by
  rw [lastWrite_eq_none_iff]
  intro op hop
  obtain ⟨f, _, rfl⟩ := mem_collectOps.mp hop
  simp [nodeWriteOf]

theorem fileCallOps_node_none (q : String) (pf : ParsedFile) (id : NodeId) :
    lastWrite (nodeWriteOf id) (fileCallOps q pf) = none := by
  rw [lastWrite_eq_none_iff]
  intro op hop
  obtain ⟨e, _, t, _, _, rfl⟩ := mem_fileCallOps.mp hop
  rfl

theorem callOps_node_none (files : List (String × ParsedFile)) (id : NodeId) :
    lastWrite (nodeWriteOf id) (callOps files) = none := by
  rw [lastWrite_eq_none_iff]
  intro op hop
  obtain ⟨e, _, hope⟩ := List.mem_flatMap.mp hop
  obtain ⟨e₁, _, t, _, _, rfl⟩ := mem_fileCallOps.mp hope
  rfl

theorem buildOps_node_file_none (files : List (String × ParsedFile))
    (p : String) :
    lastWrite (nodeWriteOf (NodeId.file p)) (buildOps files) = none := by
  rw [lastWrite_eq_none_iff]
  intro op hop
  obtain ⟨e, _, hope⟩ := List.mem_flatMap.mp hop
  rcases mem_fileBuildOps.mp hope with ⟨c, _, h | h⟩ | ⟨f, _, h | h⟩ |
    ⟨m, _, r, _, h⟩ <;> subst h <;> simp [nodeWriteOf]

/-- Computing `lastWrite` over one file loop, when only the file with key `p` can
write the observed key: reduce to that (unique) file's record. -/
theorem lastWrite_bind_unique {β : Type} (wof : Op → Option β)
    (F : String → ParsedFile → List Op)
    (todo : List (String × ParsedFile)) (p : String)
    (hnd : (todo.map Prod.fst).Nodup)
    (hnone : ∀ q pf, q ≠ p → ∀ op ∈ F q pf, wof op = none) :
    lastWrite wof (todo.flatMap fun e => F e.1 e.2) =
      (assocGet? p todo).bind fun pf => lastWrite wof (F p pf) := by
  induction todo with
  | nil => simp [lastWrite, assocGet?]
  | cons e rest ih =>
    obtain ⟨q, pf⟩ := e
    simp only [List.map_cons, List.nodup_cons] at hnd
    rw [List.flatMap_cons, lastWrite_append]
    by_cases hq : q = p
    · subst hq
      have hrest : lastWrite wof (rest.flatMap fun e => F e.1 e.2) = none := by
        rw [lastWrite_eq_none_iff]
        intro op hop
        obtain ⟨e₁, he₁, hope⟩ := List.mem_flatMap.mp hop
        refine hnone e₁.1 e₁.2 ?_ op hope
        intro heq
        exact hnd.1 (heq ▸ List.mem_map_of_mem Prod.fst he₁)
      rw [hrest, none_orElse']
      simp [assocGet?]
    · have hthis : lastWrite wof (F q pf) = none := by
        rw [lastWrite_eq_none_iff]
        exact fun op hop => hnone q pf hq op hop
      rw [hthis, orElse_none_right, ih hnd.2]
      simp [assocGet?, hq]

/-! ### The writes of one file's `_add_nodes_and_edges` body -/

theorem lastWrite_declChunk_node {γ : Type} (p n : String)
    (entries : List (String × γ)) (mk : String → γ → NodeAttrs)
    (hnd : (entries.map Prod.fst).Nodup) :
    lastWrite (nodeWriteOf (NodeId.decl p n))
        (entries.flatMap fun e =>
          [Op.addNode (.decl p e.1) (mk e.1 e.2),
           Op.addEdge (.file p) (.decl p e.1) .defined_in]) =
      (assocGet? n entries).map (mk n) := by
  cases hc : assocGet? n entries with
  | none =>
    rw [Option.map_none', lastWrite_eq_none_iff]
    intro op hop
    obtain ⟨e, he, hope⟩ := List.mem_flatMap.mp hop
    have hne : e.1 ≠ n := by
      intro heq
      have hkeys : n ∈ entries.map Prod.fst :=
        heq ▸ List.mem_map_of_mem Prod.fst he
      exact (assocGet?_eq_none_iff n entries).mp hc hkeys
    rcases List.mem_cons.mp hope with h | h
    · subst h
      simp only [nodeWriteOf]
      rw [if_neg]
      intro hcon
      exact hne (by simpa using hcon)
    · rcases List.mem_cons.mp h with h₁ | h₁
      · subst h₁; rfl
      · exact absurd h₁ (List.not_mem_nil op)
  | some ci =>
    rw [Option.map_some']
    have hconst : ∀ op ∈ entries.flatMap fun e =>
        [Op.addNode (.decl p e.1) (mk e.1 e.2),
         Op.addEdge (.file p) (.decl p e.1) .defined_in],
        ∀ c, nodeWriteOf (NodeId.decl p n) op = some c → c = mk n ci := by
      intro op hop c hw
      obtain ⟨e, he, hope⟩ := List.mem_flatMap.mp hop
      rcases List.mem_cons.mp hope with h | h
      · subst h
        simp only [nodeWriteOf] at hw
        by_cases hcon : NodeId.decl p e.1 = NodeId.decl p n
        · rw [if_pos hcon] at hw
          have he₁ : e.1 = n := by simpa using hcon
          obtain ⟨e₁, e₂⟩ := e
          simp only at he₁ hw
          subst he₁
          have hget : assocGet? e₁ entries = some e₂ :=
            assocGet?_eq_some_of_mem hnd he
          have hci : ci = e₂ := Option.some.inj (hc.symm.trans hget)
          have hcw : c = mk e₁ e₂ := (Option.some.inj hw).symm
          rw [hcw, hci]
        · rw [if_neg hcon] at hw
          exact Option.noConfusion hw
      · rcases List.mem_cons.mp h with h₁ | h₁
        · subst h₁
          exact absurd hw (by simp [nodeWriteOf])
        · exact absurd h₁ (List.not_mem_nil op)
    rw [lastWrite_eq_some_iff_of_const hconst]
    refine ⟨Op.addNode (.decl p n) (mk n ci), ?_, ?_⟩
    · exact List.mem_flatMap.mpr ⟨(n, ci), mem_of_assocGet?_eq_some hc,
        List.mem_cons_self _ _⟩
    · simp [nodeWriteOf]

theorem lastWrite_declChunk_edge {γ : Type} (p p₁ p₂ n : String)
    (entries : List (String × γ)) (mk : String → γ → NodeAttrs) :
    lastWrite (edgeWriteOf (NodeId.file p₁, NodeId.decl p₂ n))
        (entries.flatMap fun e =>
          [Op.addNode (.decl p e.1) (mk e.1 e.2),
           Op.addEdge (.file p) (.decl p e.1) .defined_in]) =
      if p₁ = p ∧ p₂ = p ∧ n ∈ entries.map Prod.fst then some .defined_in
      else none := by
  by_cases hcond : p₁ = p ∧ p₂ = p ∧ n ∈ entries.map Prod.fst
  · rw [if_pos hcond]
    obtain ⟨h₁, h₂, hmem⟩ := hcond
    rw [h₁, h₂]
    have hconst : ∀ op ∈ entries.flatMap fun e =>
        [Op.addNode (.decl p e.1) (mk e.1 e.2),
         Op.addEdge (.file p) (.decl p e.1) .defined_in],
        ∀ c, edgeWriteOf (NodeId.file p, NodeId.decl p n) op = some c →
          c = Label.defined_in := by
      intro op hop c hw
      obtain ⟨e, he, hope⟩ := List.mem_flatMap.mp hop
      rcases List.mem_cons.mp hope with h | h
      · subst h
        exact absurd hw (by simp [edgeWriteOf])
      · rcases List.mem_cons.mp h with h₁ | h₁
        · subst h₁
          simp only [edgeWriteOf] at hw
          by_cases hcon : ((NodeId.file p : NodeId), NodeId.decl p e.1) =
              (NodeId.file p, NodeId.decl p n)
          · rw [if_pos hcon] at hw
            exact (Option.some.inj hw).symm
          · rw [if_neg hcon] at hw
            exact Option.noConfusion hw
        · exact absurd h₁ (List.not_mem_nil op)
    rw [lastWrite_eq_some_iff_of_const hconst]
    obtain ⟨e, he, he₁⟩ := List.mem_map.mp hmem
    refine ⟨Op.addEdge (.file p) (.decl p e.1) .defined_in, ?_, ?_⟩
    · exact List.mem_flatMap.mpr ⟨e, he,
        List.mem_cons_of_mem _ (List.mem_cons_self _ _)⟩
    · simp [edgeWriteOf, he₁]
  · rw [if_neg hcond, lastWrite_eq_none_iff]
    intro op hop
    obtain ⟨e, he, hope⟩ := List.mem_flatMap.mp hop
    rcases List.mem_cons.mp hope with h | h
    · subst h; rfl
    · rcases List.mem_cons.mp h with h₁ | h₁
      · subst h₁
        simp only [edgeWriteOf]
        rw [if_neg]
        intro hcon
        have hps : p = p₁ ∧ p = p₂ ∧ e.1 = n := by
          simpa [Prod.ext_iff] using hcon
        exact hcond ⟨hps.1.symm, hps.2.1.symm,
          hps.2.2 ▸ List.mem_map_of_mem Prod.fst he⟩
      · exact absurd h₁ (List.not_mem_nil op)

theorem lastWrite_declChunk_edge_fileTarget {γ : Type} (p p₁ q : String)
    (entries : List (String × γ)) (mk : String → γ → NodeAttrs) :
    lastWrite (edgeWriteOf (NodeId.file p₁, NodeId.file q))
        (entries.flatMap fun e =>
          [Op.addNode (.decl p e.1) (mk e.1 e.2),
           Op.addEdge (.file p) (.decl p e.1) .defined_in]) = none := by
  rw [lastWrite_eq_none_iff]
  intro op hop
  obtain ⟨e, he, hope⟩ := List.mem_flatMap.mp hop
  rcases List.mem_cons.mp hope with h | h
  · subst h; rfl
  · rcases List.mem_cons.mp h with h₁ | h₁
    · subst h₁
      simp [edgeWriteOf]
    · exact absurd h₁ (List.not_mem_nil op)

theorem lastWrite_declChunk_node_file {γ : Type} (p : String) (id : NodeId)
    (hid : ∀ q n, id ≠ NodeId.decl q n)
    (entries : List (String × γ)) (mk : String → γ → NodeAttrs) :
    lastWrite (nodeWriteOf id)
        (entries.flatMap fun e =>
          [Op.addNode (.decl p e.1) (mk e.1 e.2),
           Op.addEdge (.file p) (.decl p e.1) .defined_in]) = none := by
  rw [lastWrite_eq_none_iff]
  intro op hop
  obtain ⟨e, he, hope⟩ := List.mem_flatMap.mp hop
  rcases List.mem_cons.mp hope with h | h
  · subst h
    simp only [nodeWriteOf]
    rw [if_neg]
    intro hcon
    exact hid p e.1 hcon.symm
  · rcases List.mem_cons.mp h with h₁ | h₁
    · subst h₁; rfl
    · exact absurd h₁ (List.not_mem_nil op)

theorem lastWrite_importChunk_edge (all : List (String × ParsedFile))
    (p p₁ q : String) (ms : List String) :
    lastWrite (edgeWriteOf (NodeId.file p₁, NodeId.file q))
        (ms.flatMap fun m => importOps all p m) =
      if p₁ = p ∧ ∃ m ∈ ms, findModuleFile all m = some q
      then some .file_import else none := by
  by_cases hcond : p₁ = p ∧ ∃ m ∈ ms, findModuleFile all m = some q
  · rw [if_pos hcond]
    obtain ⟨h₁, m, hm, hfind⟩ := hcond
    subst h₁
    have hconst : ∀ op ∈ ms.flatMap fun m => importOps all p₁ m,
        ∀ c, edgeWriteOf (NodeId.file p₁, NodeId.file q) op = some c →
          c = Label.file_import := by
      intro op hop c hw
      obtain ⟨m₁, _, hope⟩ := List.mem_flatMap.mp hop
      obtain ⟨r, _, rfl⟩ := mem_importOps.mp hope
      simp only [edgeWriteOf] at hw
      by_cases hcon : ((NodeId.file p₁ : NodeId), NodeId.file r) =
          (NodeId.file p₁, NodeId.file q)
      · rw [if_pos hcon] at hw
        exact (Option.some.inj hw).symm
      · rw [if_neg hcon] at hw
        exact Option.noConfusion hw
    rw [lastWrite_eq_some_iff_of_const hconst]
    refine ⟨Op.addEdge (.file p₁) (.file q) .file_import, ?_, ?_⟩
    · exact List.mem_flatMap.mpr ⟨m, hm,
        mem_importOps.mpr ⟨q, hfind, rfl⟩⟩
    · simp [edgeWriteOf]
  · rw [if_neg hcond, lastWrite_eq_none_iff]
    intro op hop
    obtain ⟨m, hm, hope⟩ := List.mem_flatMap.mp hop
    obtain ⟨r, hfind, rfl⟩ := mem_importOps.mp hope
    simp only [edgeWriteOf]
    rw [if_neg]
    intro hcon
    obtain ⟨hf, hd⟩ := Prod.mk.inj hcon
    have hp₁ : p = p₁ := by injection hf
    have hr : r = q := by injection hd
    exact hcond ⟨hp₁.symm, m, hm, hr ▸ hfind⟩

theorem lastWrite_importChunk_edge_declTarget (all : List (String × ParsedFile))
    (p : String) (u v : NodeId) (hv : ∀ q, v ≠ NodeId.file q)
    (ms : List String) :
    lastWrite (edgeWriteOf (u, v)) (ms.flatMap fun m => importOps all p m) =
      none := by
  rw [lastWrite_eq_none_iff]
  intro op hop
  obtain ⟨m, hm, hope⟩ := List.mem_flatMap.mp hop
  obtain ⟨r, hfind, rfl⟩ := mem_importOps.mp hope
  simp only [edgeWriteOf]
  rw [if_neg]
  intro hcon
  obtain ⟨hf, hd⟩ := Prod.mk.inj hcon
  exact hv r hd.symm

theorem lastWrite_importChunk_node (all : List (String × ParsedFile))
    (p : String) (id : NodeId) (ms : List String) :
    lastWrite (nodeWriteOf id) (ms.flatMap fun m => importOps all p m) =
      none := by
  rw [lastWrite_eq_none_iff]
  intro op hop
  obtain ⟨m, hm, hope⟩ := List.mem_flatMap.mp hop
  obtain ⟨r, hfind, rfl⟩ := mem_importOps.mp hope
  rfl

/-! ### Nodup keys of the per-file tables -/

theorem foldl_analyzeStmt_tablesNodup (stmts : List Stmt) (pf : ParsedFile)
    (h : (pf.functions.map Prod.fst).Nodup ∧ (pf.classes.map Prod.fst).Nodup) :
    ((stmts.foldl analyzeStmt pf).functions.map Prod.fst).Nodup ∧
      ((stmts.foldl analyzeStmt pf).classes.map Prod.fst).Nodup := by
  induction stmts generalizing pf with
  | nil => exact h
  | cons s rest ih =>
    rw [List.foldl_cons]
    refine ih _ ?_
    cases s with
    | funcDef n info =>
      exact ⟨assocUpd_keysNodup _ _ _ h.1, by simpa [analyzeStmt] using h.2⟩
    | classDef n info =>
      exact ⟨by simpa [analyzeStmt] using h.1, assocUpd_keysNodup _ _ _ h.2⟩
    | impStmt names => simpa [analyzeStmt] using h
    | fromStmt mo names => cases mo <;> simpa [analyzeStmt] using h
    | other => simpa [analyzeStmt] using h

theorem analyzeStmts_tablesNodup (p : String) (stmts : List Stmt) :
    (((analyzeStmts p stmts).functions.map Prod.fst).Nodup ∧
      ((analyzeStmts p stmts).classes.map Prod.fst).Nodup) :=
  foldl_analyzeStmt_tablesNodup stmts (ParsedFile.init p)
    (by simp [ParsedFile.init])

theorem theFiles_tablesNodup (fs : List SourceFile) {p : String}
    {pf : ParsedFile} (h : assocGet? p (theFiles fs) = some pf) :
    (pf.functions.map Prod.fst).Nodup ∧ (pf.classes.map Prod.fst).Nodup := by
  rw [theFiles_get] at h
  cases hr : readFile? fs p with
  | none => simp [fileRecord, hr] at h
  | some f =>
    cases hp : f.parse with
    | none => simp [fileRecord, hr, hp] at h
    | some stmts =>
      have : pf = analyzeStmts p stmts := by
        simp [fileRecord, hr, hp] at h
        exact h.symm
      rw [this]
      exact analyzeStmts_tablesNodup p stmts

theorem hasCallTo_iff (pf : ParsedFile) (f g : String) :
    hasCallTo pf f g = true ↔
      ∃ fi, assocGet? f pf.functions = some fi ∧
        g ∈ callTargetsList fi.body := by
  cases h : assocGet? f pf.functions with
  | none => simp [hasCallTo, h]
  | some fi => simp [hasCallTo, h]

/-! ### Per-operation vanishing of off-key writes -/

theorem fileBuildOps_nodeWrite_none (all : List (String × ParsedFile))
    (q : String) (pf : ParsedFile) (p n : String) (hqp : q ≠ p) :
    ∀ op ∈ fileBuildOps all q pf,
      nodeWriteOf (NodeId.decl p n) op = none := by
  intro op hop
  rcases mem_fileBuildOps.mp hop with ⟨c, _, h | h⟩ | ⟨e, _, h | h⟩ |
    ⟨m, _, r, _, h⟩ <;> subst h
  · simp only [nodeWriteOf]
    rw [if_neg]
    intro hcon
    exact hqp (show q = p ∧ c.1 = n by simpa using hcon).1
  · rfl
  · simp only [nodeWriteOf]
    rw [if_neg]
    intro hcon
    exact hqp (show q = p ∧ e.1 = n by simpa using hcon).1
  · rfl
  · rfl

theorem fileBuildOps_edgeWrite_none_srcFile (all : List (String × ParsedFile))
    (q : String) (pf : ParsedFile) (p : String) (v : NodeId) (hqp : q ≠ p) :
    ∀ op ∈ fileBuildOps all q pf,
      edgeWriteOf (NodeId.file p, v) op = none := by
  intro op hop
  rcases mem_fileBuildOps.mp hop with ⟨c, _, h | h⟩ | ⟨e, _, h | h⟩ |
    ⟨m, _, r, _, h⟩ <;> subst h
  · rfl
  · simp only [edgeWriteOf]
    rw [if_neg]
    intro hcon
    exact hqp (by simpa [Prod.ext_iff] using congrArg Prod.fst hcon)
  · rfl
  · simp only [edgeWriteOf]
    rw [if_neg]
    intro hcon
    exact hqp (by simpa [Prod.ext_iff] using congrArg Prod.fst hcon)
  · simp only [edgeWriteOf]
    rw [if_neg]
    intro hcon
    exact hqp (by simpa [Prod.ext_iff] using congrArg Prod.fst hcon)

theorem fileBuildOps_edgeWrite_none_declSource
    (all : List (String × ParsedFile)) (q : String) (pf : ParsedFile)
    (p₁ f : String) (v : NodeId) :
    ∀ op ∈ fileBuildOps all q pf,
      edgeWriteOf (NodeId.decl p₁ f, v) op = none := by
  intro op hop
  rcases mem_fileBuildOps.mp hop with ⟨c, _, h | h⟩ | ⟨e, _, h | h⟩ |
    ⟨m, _, r, _, h⟩ <;> subst h <;> simp [edgeWriteOf, nodeWriteOf]

theorem fileCallOps_edgeWrite_none_src (q : String) (pf : ParsedFile)
    (p f : String) (v : NodeId) (hqp : q ≠ p) :
    ∀ op ∈ fileCallOps q pf,
      edgeWriteOf (NodeId.decl p f, v) op = none := by
  intro op hop
  obtain ⟨e, he, t, ht, hts, rfl⟩ := mem_fileCallOps.mp hop
  simp only [edgeWriteOf]
  rw [if_neg]
  intro hcon
  have hfst : (NodeId.decl q e.1 : NodeId) = NodeId.decl p f :=
    congrArg Prod.fst hcon
  exact hqp (show q = p ∧ e.1 = f by simpa using hfst).1

theorem fileCallOps_edgeWrite_none_fileSource (q : String) (pf : ParsedFile)
    (p : String) (v : NodeId) :
    ∀ op ∈ fileCallOps q pf,
      edgeWriteOf (NodeId.file p, v) op = none := by
  intro op hop
  obtain ⟨e, he, t, ht, hts, rfl⟩ := mem_fileCallOps.mp hop
  simp [edgeWriteOf]

theorem fileCallOps_edgeWrite_none_fileTarget (q : String) (pf : ParsedFile)
    (u : NodeId) (r : String) :
    ∀ op ∈ fileCallOps q pf,
      edgeWriteOf (u, NodeId.file r) op = none := by
  intro op hop
  obtain ⟨e, he, t, ht, hts, rfl⟩ := mem_fileCallOps.mp hop
  simp only [edgeWriteOf]
  rw [if_neg]
  intro hcon
  have hsnd : (NodeId.decl q t : NodeId) = NodeId.file r :=
    congrArg Prod.snd hcon
  exact NodeId.noConfusion hsnd

theorem callOps_edge_none_fileSource (files : List (String × ParsedFile))
    (p : String) (v : NodeId) :
    lastWrite (edgeWriteOf (NodeId.file p, v)) (callOps files) = none := by
  rw [lastWrite_eq_none_iff]
  intro op hop
  obtain ⟨e, _, hope⟩ := List.mem_flatMap.mp hop
  exact fileCallOps_edgeWrite_none_fileSource e.1 e.2 p v op hope

theorem callOps_edge_none_fileTarget (files : List (String × ParsedFile))
    (u : NodeId) (r : String) :
    lastWrite (edgeWriteOf (u, NodeId.file r)) (callOps files) = none := by
  rw [lastWrite_eq_none_iff]
  intro op hop
  obtain ⟨e, _, hope⟩ := List.mem_flatMap.mp hop
  exact fileCallOps_edgeWrite_none_fileTarget e.1 e.2 u r op hope

theorem buildOps_edge_none_declSource (files : List (String × ParsedFile))
    (p₁ f : String) (v : NodeId) :
    lastWrite (edgeWriteOf (NodeId.decl p₁ f, v)) (buildOps files) = none := by
  rw [lastWrite_eq_none_iff]
  intro op hop
  obtain ⟨e, _, hope⟩ := List.mem_flatMap.mp hop
  exact fileBuildOps_edgeWrite_none_declSource files e.1 e.2 p₁ f v op hope

/-! ### The writes of `_add_nodes_and_edges` / `_resolve_calls_basic` for one
file record -/

theorem lastWrite_fileBuildOps_node_decl (all : List (String × ParsedFile))
    (p q n : String) (pf : ParsedFile)
    (hc : (pf.classes.map Prod.fst).Nodup)
    (hf : (pf.functions.map Prod.fst).Nodup) :
    lastWrite (nodeWriteOf (NodeId.decl q n)) (fileBuildOps all p pf) =
      if q = p then declAttrsOf p n pf else none := by
  by_cases hq : q = p
  · rw [if_pos hq, hq]
    rw [fileBuildOps, lastWrite_append, lastWrite_append]
    rw [lastWrite_importChunk_node, none_orElse']
    rw [lastWrite_declChunk_node p n pf.functions (funcAttrs p) hf]
    rw [lastWrite_declChunk_node p n pf.classes (classAttrs p) hc]
    cases hgf : assocGet? n pf.functions <;>
      simp [declAttrsOf, hgf, some_orElse', none_orElse']
  · rw [if_neg hq, lastWrite_eq_none_iff]
    exact fileBuildOps_nodeWrite_none all p pf q n (fun he => hq he.symm)

theorem lastWrite_fileBuildOps_edge_definedIn
    (all : List (String × ParsedFile)) (p p₁ p₂ n : String)
    (pf : ParsedFile) :
    lastWrite (edgeWriteOf (NodeId.file p₁, NodeId.decl p₂ n))
        (fileBuildOps all p pf) =
      if p₁ = p ∧ p₂ = p ∧
          (n ∈ pf.classes.map Prod.fst ∨ n ∈ pf.functions.map Prod.fst)
      then some .defined_in else none := by
  rw [fileBuildOps, lastWrite_append, lastWrite_append]
  rw [lastWrite_importChunk_edge_declTarget all p _ _ (by simp), none_orElse']
  rw [lastWrite_declChunk_edge p p₁ p₂ n pf.functions (funcAttrs p)]
  rw [lastWrite_declChunk_edge p p₁ p₂ n pf.classes (classAttrs p)]
  by_cases h₁ : p₁ = p <;> by_cases h₂ : p₂ = p <;>
    by_cases hcf : n ∈ pf.classes.map Prod.fst <;>
    by_cases hff : n ∈ pf.functions.map Prod.fst <;>
    simp [h₁, h₂, hcf, hff, some_orElse', none_orElse']

theorem lastWrite_fileBuildOps_edge_fileImport
    (all : List (String × ParsedFile)) (p p₁ q : String) (pf : ParsedFile) :
    lastWrite (edgeWriteOf (NodeId.file p₁, NodeId.file q))
        (fileBuildOps all p pf) =
      if p₁ = p ∧ ∃ m ∈ importTargets pf, findModuleFile all m = some q
      then some .file_import else none := by
  rw [fileBuildOps, lastWrite_append, lastWrite_append]
  rw [lastWrite_importChunk_edge]
  rw [lastWrite_declChunk_edge_fileTarget p p₁ q pf.functions (funcAttrs p)]
  rw [lastWrite_declChunk_edge_fileTarget p p₁ q pf.classes (classAttrs p)]
  cases hcond : (if p₁ = p ∧ ∃ m ∈ importTargets pf,
      findModuleFile all m = some q then some Label.file_import else none) <;>
    simp [some_orElse', none_orElse']

theorem lastWrite_fileCallOps_edge (p p₁ p₂ f g : String) (pf : ParsedFile)
    (hf : (pf.functions.map Prod.fst).Nodup) :
    lastWrite (edgeWriteOf (NodeId.decl p₁ f, NodeId.decl p₂ g))
        (fileCallOps p pf) =
      if p₁ = p ∧ p₂ = p ∧ hasCallTo pf f g = true ∧
          (assocGet? g pf.functions).isSome = true
      then some .calls else none := by
  by_cases hcond : p₁ = p ∧ p₂ = p ∧ hasCallTo pf f g = true ∧
      (assocGet? g pf.functions).isSome = true
  · rw [if_pos hcond]
    obtain ⟨h₁, h₂, hcall, hg⟩ := hcond
    rw [h₁, h₂]
    obtain ⟨fi, hfi, hgt⟩ := (hasCallTo_iff pf f g).mp hcall
    have hconst : ∀ op ∈ fileCallOps p pf, ∀ c,
        edgeWriteOf (NodeId.decl p f, NodeId.decl p g) op = some c →
          c = Label.calls := by
      intro op hop c hw
      obtain ⟨e, he, t, ht, hts, rfl⟩ := mem_fileCallOps.mp hop
      simp only [edgeWriteOf] at hw
      by_cases hcon : ((NodeId.decl p e.1 : NodeId), NodeId.decl p t) =
          (NodeId.decl p f, NodeId.decl p g)
      · rw [if_pos hcon] at hw
        exact (Option.some.inj hw).symm
      · rw [if_neg hcon] at hw
        exact Option.noConfusion hw
    rw [lastWrite_eq_some_iff_of_const hconst]
    refine ⟨Op.addEdge (.decl p f) (.decl p g) .calls, ?_, ?_⟩
    · exact mem_fileCallOps.mpr ⟨(f, fi), mem_of_assocGet?_eq_some hfi,
        g, hgt, hg, rfl⟩
    · simp [edgeWriteOf]
  · rw [if_neg hcond, lastWrite_eq_none_iff]
    intro op hop
    obtain ⟨⟨e₁, e₂⟩, he, t, ht, hts, rfl⟩ := mem_fileCallOps.mp hop
    simp only [edgeWriteOf]
    rw [if_neg]
    intro hcon
    have h4 : (p = p₁ ∧ e₁ = f) ∧ p = p₂ ∧ t = g := by
      simpa [Prod.ext_iff] using hcon
    obtain ⟨⟨hp₁, he₁⟩, hp₂, htg⟩ := h4
    refine hcond ⟨hp₁.symm, hp₂.symm, ?_, ?_⟩
    · rw [hasCallTo_iff]
      refine ⟨e₂, ?_, ?_⟩
      · rw [← he₁]
        exact assocGet?_eq_some_of_mem hf he
      · rw [← htg]
        exact ht
    · rw [← htg]
      exact hts

theorem parseOps_eq (fs : List SourceFile) :
    parseOps fs =
      collectOps fs ++ buildOps (theFiles fs) ++ callOps (theFiles fs) := rfl

/-! ### Full characterization of the built graph's nodes and edges -/

/-- File nodes: one per discovered path, with the collect-stage attributes,
regardless of parse success. -/
theorem fileNode_get (fs : List SourceFile) (p : String) :
    assocGet? (NodeId.file p) (parse fs).nodes =
      if ∃ f ∈ fs, f.path = p then some (NodeAttrs.file p) else none := by
  rw [parse_nodes_get, parseOps_eq, lastWrite_append, lastWrite_append]
  rw [callOps_node_none, none_orElse', buildOps_node_file_none, none_orElse']
  exact lastWrite_collectOps_file fs p

/-- Declaration nodes: determined by the (unique) record of the owning file;
the function table overrides the class table. -/
theorem declNode_get (fs : List SourceFile) (p n : String) :
    assocGet? (NodeId.decl p n) (parse fs).nodes =
      (assocGet? p (theFiles fs)).bind fun pf => declAttrsOf p n pf := by
  rw [parse_nodes_get, parseOps_eq, lastWrite_append, lastWrite_append]
  rw [callOps_node_none, none_orElse', collectOps_node_decl_none,
    orElse_none_right]
  rw [buildOps, lastWrite_bind_unique _ _ _ p (theFiles_keysNodup fs)
    (fun q pf hqp => fileBuildOps_nodeWrite_none (theFiles fs) q pf p n hqp)]
  cases hpf : assocGet? p (theFiles fs) with
  | none => simp
  | some pf =>
    obtain ⟨hfn, hcn⟩ := theFiles_tablesNodup fs hpf
    rw [Option.some_bind, Option.some_bind]
    rw [lastWrite_fileBuildOps_node_decl (theFiles fs) p p n pf hcn hfn,
      if_pos rfl]

/-- A `(file, decl)` edge key: present iff the file's record declares the
name, and then it is a `defined_in` edge of that file. -/
theorem definedInEdge_get (fs : List SourceFile) (p₁ p₂ n : String) :
    assocGet? (NodeId.file p₁, NodeId.decl p₂ n) (parse fs).edges =
      (assocGet? p₁ (theFiles fs)).bind fun pf =>
        if p₂ = p₁ ∧
            (n ∈ pf.classes.map Prod.fst ∨ n ∈ pf.functions.map Prod.fst)
        then some .defined_in else none := by
  rw [parse_edges_get, parseOps_eq, lastWrite_append, lastWrite_append]
  rw [callOps_edge_none_fileSource, none_orElse', collectOps_edge_none,
    orElse_none_right]
  rw [buildOps, lastWrite_bind_unique _ _ _ p₁ (theFiles_keysNodup fs)
    (fun q pf hqp =>
      fileBuildOps_edgeWrite_none_srcFile (theFiles fs) q pf p₁ _ hqp)]
  cases hpf : assocGet? p₁ (theFiles fs) with
  | none => simp
  | some pf =>
    rw [Option.some_bind, Option.some_bind]
    rw [lastWrite_fileBuildOps_edge_definedIn (theFiles fs) p₁ p₁ p₂ n pf]
    by_cases h₂ : p₂ = p₁
    · by_cases hd : n ∈ pf.classes.map Prod.fst ∨ n ∈ pf.functions.map Prod.fst
      · rw [if_pos ⟨rfl, h₂, hd⟩, if_pos ⟨h₂, hd⟩]
      · rw [if_neg fun hc => hd hc.2.2, if_neg fun hc => hd hc.2]
    · rw [if_neg fun hc => h₂ hc.2.1, if_neg fun hc => h₂ hc.1]

/-- A `(file, file)` edge key: present iff the source file's record
references a root module whose resolution is the target, and then it is a
`file_import` edge. -/
theorem fileImportEdge_get (fs : List SourceFile) (p q : String) :
    assocGet? (NodeId.file p, NodeId.file q) (parse fs).edges =
      (assocGet? p (theFiles fs)).bind fun pf =>
        if ∃ m ∈ importTargets pf, findModuleFile (theFiles fs) m = some q
        then some .file_import else none := by
  rw [parse_edges_get, parseOps_eq, lastWrite_append, lastWrite_append]
  rw [callOps_edge_none_fileSource, none_orElse', collectOps_edge_none,
    orElse_none_right]
  rw [buildOps, lastWrite_bind_unique _ _ _ p (theFiles_keysNodup fs)
    (fun q₁ pf hqp =>
      fileBuildOps_edgeWrite_none_srcFile (theFiles fs) q₁ pf p _ hqp)]
  cases hpf : assocGet? p (theFiles fs) with
  | none => simp
  | some pf =>
    rw [Option.some_bind, Option.some_bind]
    rw [lastWrite_fileBuildOps_edge_fileImport (theFiles fs) p p q pf]
    by_cases hex : ∃ m ∈ importTargets pf,
        findModuleFile (theFiles fs) m = some q <;> simp [hex]

/-- A `(decl, decl)` edge key: present iff the call resolver links the two
top-level functions of the same file's record, and then it is a `calls`
edge. -/
theorem callsEdge_get (fs : List SourceFile) (p₁ p₂ f g : String) :
    assocGet? (NodeId.decl p₁ f, NodeId.decl p₂ g) (parse fs).edges =
      (assocGet? p₁ (theFiles fs)).bind fun pf =>
        if p₂ = p₁ ∧ hasCallTo pf f g = true ∧
            (assocGet? g pf.functions).isSome = true
        then some .calls else none := by
  rw [parse_edges_get, parseOps_eq, lastWrite_append, lastWrite_append]
  rw [buildOps_edge_none_declSource, none_orElse', collectOps_edge_none,
    orElse_none_right]
  rw [callOps, lastWrite_bind_unique _ _ _ p₁ (theFiles_keysNodup fs)
    (fun q pf hqp => fileCallOps_edgeWrite_none_src q pf p₁ f _ hqp)]
  cases hpf : assocGet? p₁ (theFiles fs) with
  | none => simp
  | some pf =>
    obtain ⟨hfn, _⟩ := theFiles_tablesNodup fs hpf
    rw [Option.some_bind, Option.some_bind]
    rw [lastWrite_fileCallOps_edge p₁ p₁ p₂ f g pf hfn]
    by_cases h₂ : p₂ = p₁ <;>
      by_cases hcall : hasCallTo pf f g = true <;>
      by_cases hg : (assocGet? g pf.functions).isSome = true <;>
      simp [h₂, hcall, hg]

/-- A `(decl, file)` edge key never occurs. -/
theorem declFileEdge_get (fs : List SourceFile) (p n q : String) :
    assocGet? (NodeId.decl p n, NodeId.file q) (parse fs).edges = none := by
  rw [parse_edges_get, parseOps_eq, lastWrite_append, lastWrite_append]
  rw [callOps_edge_none_fileTarget, none_orElse',
    buildOps_edge_none_declSource, none_orElse', collectOps_edge_none]

/-! ### Auxiliary counting lemmas -/

theorem length_filter_le_one_of_key {κ α : Type} [DecidableEq κ]
    {d : List (κ × α)} {P : κ × α → Bool} {k : κ}
    (hnd : (d.map Prod.fst).Nodup) (hP : ∀ e, P e = true → e.1 = k) :
    (d.filter P).length ≤ 1 := by
  induction d with
  | nil => simp
  | cons e rest ih =>
    simp only [List.map_cons, List.nodup_cons] at hnd
    rw [List.filter_cons]
    by_cases hPe : P e = true
    · rw [if_pos hPe]
      have hrest : rest.filter P = [] := by
        rw [List.filter_eq_nil_iff]
        intro x hx hPx
        have h₁ : x.1 = k := hP x hPx
        have h₂ : e.1 = k := hP e hPe
        refine hnd.1 ?_
        rw [h₂, ← h₁]
        exact List.mem_map_of_mem Prod.fst hx
      rw [hrest]
      simp
    · rw [if_neg hPe]
      exact ih hnd.2

theorem filter_eq_singleton_of {α : Type} {P : α → Bool} {l : List α}
    {a : α} (hnd : l.Nodup) (ha : a ∈ l)
    (hP : ∀ x ∈ l, (P x = true ↔ x = a)) :
    l.filter P = [a] := by
  induction l with
  | nil => simp at ha
  | cons x xs ih =>
    rw [List.filter_cons]
    rcases List.mem_cons.mp ha with h₁ | h₁
    · subst h₁
      have hPa : P a = true := (hP a (List.mem_cons_self _ _)).mpr rfl
      rw [if_pos hPa]
      have hxs : xs.filter P = [] := by
        rw [List.filter_eq_nil_iff]
        intro y hy hPy
        have hya : y = a := (hP y (List.mem_cons_of_mem _ hy)).mp hPy
        subst hya
        exact (List.nodup_cons.mp hnd).1 hy
      rw [hxs]
    · have hx : ¬P x = true := by
        intro hPx
        have hxa : x = a := (hP x (List.mem_cons_self _ _)).mp hPx
        subst hxa
        exact (List.nodup_cons.mp hnd).1 h₁
      rw [if_neg hx]
      exact ih (List.nodup_cons.mp hnd).2 h₁
        fun y hy => hP y (List.mem_cons_of_mem _ hy)

/-- Every entry of the built edge list is recovered by lookup on its key. -/
theorem edge_mem_get (fs : List SourceFile)
    {e : (NodeId × NodeId) × Label} (he : e ∈ (parse fs).edges) :
    assocGet? e.1 (parse fs).edges = some e.2 := by
  obtain ⟨k, l⟩ := e
  exact assocGet?_eq_some_of_mem (parse_edges_keysNodup fs) he

/-! ### Claim theorems -/

/-- Claim C1, counterexample: the import resolver searches only the
successfully analyzed files, not all discovered files.  Here `a/util.py` is
discovered, its basename matches the referenced root module `util` of
`main.py`, yet no `file_import` edge to it is built, because `a/util.py`
failed to parse. -/
theorem C1_counterexample :
    basename "a/util.py" = "util" ++ ".py" ∧
    (∃ f ∈ exC1fs, f.path = "a/util.py") ∧
    (assocGet? "main.py" (theFiles exC1fs)).map importTargets =
      some ["util"] ∧
    (∀ q, assocGet? (NodeId.file "main.py", NodeId.file q)
      (parse exC1fs).edges = none) := by
  refine ⟨by decide, ⟨⟨"a/util.py", none⟩, List.mem_cons_self _ _, rfl⟩,
    by decide, ?_⟩
  intro q
  rw [fileImportEdge_get]
  have h : assocGet? "main.py" (theFiles exC1fs) =
      some (analyzeStmts "main.py" [Stmt.impStmt [⟨"util", none⟩]]) := rfl
  rw [h, Option.some_bind, if_neg]
  rintro ⟨m, hm, hfind⟩
  have htg : importTargets
      (analyzeStmts "main.py" [Stmt.impStmt [⟨"util", none⟩]]) =
      ["util"] := by decide
  rw [htg] at hm
  obtain rfl : m = "util" := by simpa using hm
  have hnone : findModuleFile (theFiles exC1fs) "util" = none := by decide
  rw [hnone] at hfind
  exact Option.noConfusion hfind

/-- Claim C1 (amended: the resolver searches the set of successfully
analyzed files — parse failures excluded — rather than all discovered
files): the built graph has a `file_import` edge from file `p` to file `q`
exactly when `p` was successfully analyzed and some root module name it
references resolves, by first basename match over the analyzed-file list in
iteration order, to `q`; a module name matching no analyzed file
contributes no edge, and no other label ever sits on a file-to-file edge
key. -/
theorem C1_import_edge_iff (fs : List SourceFile) (p q : String)
    (l : Label) :
    assocGet? (NodeId.file p, NodeId.file q) (parse fs).edges = some l ↔
      l = Label.file_import ∧
      ∃ pf, assocGet? p (theFiles fs) = some pf ∧
        ∃ m ∈ importTargets pf,
          findModuleFile (theFiles fs) m = some q := by
  rw [fileImportEdge_get]
  cases hpf : assocGet? p (theFiles fs) with
  | none =>
    simp
  | some pf =>
    rw [Option.some_bind]
    by_cases hex : ∃ m ∈ importTargets pf,
        findModuleFile (theFiles fs) m = some q
    · rw [if_pos hex]
      simp only [Option.some.injEq]
      constructor
      · intro h
        exact ⟨h.symm, pf, rfl, hex⟩
      · rintro ⟨hl, _⟩
        exact hl.symm
    · rw [if_neg hex]
      constructor
      · intro h
        exact Option.noConfusion h
      · rintro ⟨hl, pf₁, hpf₁, hex₁⟩
        obtain rfl : pf = pf₁ := Option.some.inj hpf₁
        exact absurd hex₁ hex

/-- Claim C6: every `calls` edge connects two declaration nodes of the same
file (identifier strings `path::name` with equal path prefix). -/
theorem C6_calls_same_file (fs : List SourceFile) (u v : NodeId)
    (h : assocGet? (u, v) (parse fs).edges = some Label.calls) :
    ∃ p fn gn, u = NodeId.decl p fn ∧ v = NodeId.decl p gn := by
  cases u with
  | file p₁ =>
    cases v with
    | file p₂ =>
      rw [fileImportEdge_get] at h
      cases hpf : assocGet? p₁ (theFiles fs) with
      | none =>
        rw [hpf, Option.none_bind] at h
        exact Option.noConfusion h
      | some pf =>
        rw [hpf, Option.some_bind] at h
        by_cases hcond : ∃ m ∈ importTargets pf,
            findModuleFile (theFiles fs) m = some p₂
        · rw [if_pos hcond] at h
          exact Label.noConfusion (Option.some.inj h)
        · rw [if_neg hcond] at h
          exact Option.noConfusion h
    | decl p₂ n =>
      rw [definedInEdge_get] at h
      cases hpf : assocGet? p₁ (theFiles fs) with
      | none =>
        rw [hpf, Option.none_bind] at h
        exact Option.noConfusion h
      | some pf =>
        rw [hpf, Option.some_bind] at h
        by_cases hcond : p₂ = p₁ ∧ (n ∈ pf.classes.map Prod.fst ∨
            n ∈ pf.functions.map Prod.fst)
        · rw [if_pos hcond] at h
          exact Label.noConfusion (Option.some.inj h)
        · rw [if_neg hcond] at h
          exact Option.noConfusion h
  | decl p₁ f =>
    cases v with
    | file q =>
      rw [declFileEdge_get] at h
      exact Option.noConfusion h
    | decl p₂ g =>
      rw [callsEdge_get] at h
      cases hpf : assocGet? p₁ (theFiles fs) with
      | none =>
        rw [hpf, Option.none_bind] at h
        exact Option.noConfusion h
      | some pf =>
        rw [hpf, Option.some_bind] at h
        by_cases hcond : p₂ = p₁ ∧ hasCallTo pf f g = true ∧
            (assocGet? g pf.functions).isSome = true
        · exact ⟨p₁, f, g, rfl, by rw [hcond.1]⟩
        · rw [if_neg hcond] at h
          exact Option.noConfusion h

/-- Witness for C6 at a file where `f` calls `g`. -/
theorem C6_witness :
    ∃ p fn gn, (NodeId.decl "a.py" "f") = NodeId.decl p fn ∧
      (NodeId.decl "a.py" "g") = NodeId.decl p gn :=
  C6_calls_same_file exC6fs (NodeId.decl "a.py" "f")
    (NodeId.decl "a.py" "g") (by decide)

/-- Claim C7: the edge store keys edges by their endpoint pair, so at most
one `file_import` edge exists from `A` to `B`, however many import
statements or aliases of `A` resolve to `B`. -/
theorem C7_at_most_one_file_import (fs : List SourceFile) (A B : String) :
    ((parse fs).edges.filter fun e =>
      decide (e.1 = (NodeId.file A, NodeId.file B) ∧
        e.2 = Label.file_import)).length ≤ 1 := by
  refine length_filter_le_one_of_key
    (k := (NodeId.file A, NodeId.file B)) (parse_edges_keysNodup fs) ?_
  intro e he
  exact (of_decide_eq_true he).1

/-- Claim C8: import extraction.  A plain import of a dotted path binds the
explicit as-name — otherwise the root segment — to the first dotted segment
of the path (so importing `pkg.sub` records module `pkg`); a from-import
binds each imported name (or its as-name) to the first dotted segment of
the source module; a from-import with no module contributes nothing. -/
theorem C8_import_extraction (p : String) (stmts : List Stmt) :
    (∀ path asn, assocGet? (asn.getD (rootSeg path))
        ((analyzeStmts p (stmts ++ [Stmt.impStmt [⟨path, asn⟩]])).imports) =
        some (rootSeg path)) ∧
    (∀ m nm asn, assocGet? (asn.getD nm)
        ((analyzeStmts p
          (stmts ++ [Stmt.fromStmt (some m) [⟨nm, asn⟩]])).from_imports) =
        some (rootSeg m)) ∧
    (∀ names, analyzeStmts p (stmts ++ [Stmt.fromStmt none names]) =
        analyzeStmts p stmts) ∧
    rootSeg "pkg.sub" = "pkg" := by
  refine ⟨?_, ?_, ?_, by decide⟩
  · intro path asn
    rw [analyzeStmts, List.foldl_append, List.foldl_cons, List.foldl_nil]
    simp [analyzeStmt, recordImport, assocGet?_assocUpd]
  · intro m nm asn
    rw [analyzeStmts, List.foldl_append, List.foldl_cons, List.foldl_nil]
    simp [analyzeStmt, recordFromImport, assocGet?_assocUpd]
  · intro names
    rw [analyzeStmts, analyzeStmts, List.foldl_append, List.foldl_cons,
      List.foldl_nil]
    rfl

/-- Claim C9: a top-level function whose body contains a direct bare-name
call to itself gets a `calls` self-loop edge. -/
theorem C9_self_recursive_call (fs : List SourceFile) (p fn : String)
    (pf : ParsedFile) (fi : FuncInfo)
    (hpf : assocGet? p (theFiles fs) = some pf)
    (hfn : assocGet? fn pf.functions = some fi)
    (hcall : fn ∈ callTargetsList fi.body) :
    assocGet? (NodeId.decl p fn, NodeId.decl p fn) (parse fs).edges =
      some Label.calls := by
  rw [callsEdge_get, hpf, Option.some_bind, if_pos]
  refine ⟨rfl, (hasCallTo_iff pf fn fn).mpr ⟨fi, hfn, hcall⟩, ?_⟩
  rw [hfn]
  rfl

/-- Witness for C9: `loop` calling itself produces the self-loop. -/
theorem C9_witness :
    assocGet? (NodeId.decl "a.py" "loop", NodeId.decl "a.py" "loop")
      (parse exC9fs).edges = some Label.calls :=
  C9_self_recursive_call exC9fs "a.py" "loop"
    (analyzeStmts "a.py" [Stmt.funcDef "loop"
      ⟨1, 2, [], "", [.call (.name "loop") []]⟩])
    ⟨1, 2, [], "", [.call (.name "loop") []]⟩ rfl rfl (by decide)

/-- Claim C10: a file referencing a root module name that resolves (first
match in file-set iteration order) to the file itself gets a `file_import`
self-loop; source and target of a `file_import` edge need not differ. -/
theorem C10_self_import (fs : List SourceFile) (p m : String)
    (pf : ParsedFile)
    (hpf : assocGet? p (theFiles fs) = some pf)
    (hm : m ∈ importTargets pf)
    (hfirst : findModuleFile (theFiles fs) m = some p) :
    assocGet? (NodeId.file p, NodeId.file p) (parse fs).edges =
      some Label.file_import := by
  rw [fileImportEdge_get, hpf, Option.some_bind, if_pos ⟨m, hm, hfirst⟩]

/-- Witness for C10: `util.py` containing an import of `util`. -/
theorem C10_witness :
    assocGet? (NodeId.file "util.py", NodeId.file "util.py")
      (parse exC10fs).edges = some Label.file_import :=
  C10_self_import exC10fs "util.py" "util"
    (analyzeStmts "util.py" [Stmt.impStmt [⟨"util", none⟩]])
    rfl (by decide) (by decide)

/-- Claim C3: a discovered file that fails to parse keeps its file node,
contributes no declaration node under its path and no outgoing edge, and
every other successfully parsed file is still fully analyzed. -/
theorem C3_parse_failure_isolation (fs : List SourceFile) (f : SourceFile)
    (hmem : f ∈ fs) (hfail : f.parse = none)
    (hnd : (fs.map SourceFile.path).Nodup) :
    assocGet? (NodeId.file f.path) (parse fs).nodes =
        some (NodeAttrs.file f.path) ∧
    (∀ n, assocGet? (NodeId.decl f.path n) (parse fs).nodes = none) ∧
    (∀ v, assocGet? (NodeId.file f.path, v) (parse fs).edges = none) ∧
    (∀ g ∈ fs, g.path ≠ f.path → ∀ stmts, g.parse = some stmts →
      assocGet? g.path (theFiles fs) =
        some (analyzeStmts g.path stmts)) := by
  have hrec : assocGet? f.path (theFiles fs) = none := by
    rw [theFiles_get]
    cases hr : readFile? fs f.path with
    | none => simp [fileRecord, hr]
    | some f₁ =>
      have hr' : fs.find? (fun x => x.path == f.path) = some f₁ := hr
      have hm₁ := List.mem_of_find?_eq_some hr'
      have hp₁ : f₁.path = f.path := by
        simpa [beq_iff_eq] using List.find?_some hr'
      have hff : f₁ = f := nodup_map_inj hnd f₁ hm₁ f hmem hp₁
      subst hff
      simp [fileRecord, hr, hfail]
  refine ⟨?_, ?_, ?_, ?_⟩
  · rw [fileNode_get, if_pos ⟨f, hmem, rfl⟩]
  · intro n
    rw [declNode_get, hrec, Option.none_bind]
  · intro v
    cases v with
    | file q => rw [fileImportEdge_get, hrec, Option.none_bind]
    | decl p₂ n => rw [definedInEdge_get, hrec, Option.none_bind]
  · intro g hg hne stmts hgp
    rw [theFiles_get]
    cases hr : readFile? fs g.path with
    | none =>
      rw [readFile?] at hr
      have := List.find?_eq_none.mp hr g hg
      simp [beq_iff_eq] at this
    | some g₁ =>
      have hr' : fs.find? (fun x => x.path == g.path) = some g₁ := hr
      have hm₁ := List.mem_of_find?_eq_some hr'
      have hp₁ : g₁.path = g.path := by
        simpa [beq_iff_eq] using List.find?_some hr'
      have hgg : g₁ = g := nodup_map_inj hnd g₁ hm₁ g hg hp₁
      subst hgg
      simp [fileRecord, hr, hgp]

/-- Witness for C3 at a repository with one broken and one good file. -/
theorem C3_witness :
    assocGet? (NodeId.file "bad.py") (parse exC3fs).nodes =
        some (NodeAttrs.file "bad.py") ∧
    (∀ n, assocGet? (NodeId.decl "bad.py" n) (parse exC3fs).nodes = none) ∧
    (∀ v, assocGet? (NodeId.file "bad.py", v) (parse exC3fs).edges =
      none) ∧
    (∀ g ∈ exC3fs, g.path ≠ "bad.py" → ∀ stmts, g.parse = some stmts →
      assocGet? g.path (theFiles exC3fs) =
        some (analyzeStmts g.path stmts)) :=
  C3_parse_failure_isolation exC3fs ⟨"bad.py", none⟩
    (List.mem_cons_self _ _) rfl (by decide)

/-- Claim C5: every class or function node carries its owning file in its
`file` attribute, that file's node exists, and exactly one `defined_in`
edge targets the node — the one from its owning file node. -/
theorem C5_defined_in_unique (fs : List SourceFile) (id : NodeId)
    (a : NodeAttrs) (hget : assocGet? id (parse fs).nodes = some a)
    (hdecl : a.isDecl = true) :
    ∃ p n, id = NodeId.decl p n ∧ a.fileOf = some p ∧
      assocGet? (NodeId.file p) (parse fs).nodes =
        some (NodeAttrs.file p) ∧
      (parse fs).edges.filter (fun e =>
          decide (e.2 = Label.defined_in ∧ e.1.2 = id)) =
        [((NodeId.file p, id), Label.defined_in)] := by
  cases id with
  | file p =>
    rw [fileNode_get] at hget
    by_cases hex : ∃ f ∈ fs, f.path = p
    · rw [if_pos hex] at hget
      obtain rfl : NodeAttrs.file p = a := Option.some.inj hget
      exact absurd hdecl (by simp [NodeAttrs.isDecl])
    · rw [if_neg hex] at hget
      exact absurd hget (by simp)
  | decl p n =>
    rw [declNode_get] at hget
    cases hpf : assocGet? p (theFiles fs) with
    | none =>
      rw [hpf, Option.none_bind] at hget
      exact absurd hget (by simp)
    | some pf =>
      rw [hpf, Option.some_bind] at hget
      have hfileOf : a.fileOf = some p := by
        rw [declAttrsOf] at hget
        cases hgf : assocGet? n pf.functions with
        | some fi =>
          rw [hgf] at hget
          obtain rfl : funcAttrs p n fi = a := Option.some.inj hget
          rfl
        | none =>
          rw [hgf] at hget
          cases hgc : assocGet? n pf.classes with
          | some ci =>
            rw [hgc, Option.map_some'] at hget
            obtain rfl : classAttrs p n ci = a := Option.some.inj hget
            rfl
          | none =>
            rw [hgc, Option.map_none'] at hget
            exact absurd hget (by simp)
      have hdecls : n ∈ pf.classes.map Prod.fst ∨
          n ∈ pf.functions.map Prod.fst := by
        rw [declAttrsOf] at hget
        cases hgf : assocGet? n pf.functions with
        | some fi => exact Or.inr (mem_keys_of_assocGet?_eq_some hgf)
        | none =>
          rw [hgf] at hget
          cases hgc : assocGet? n pf.classes with
          | some ci => exact Or.inl (mem_keys_of_assocGet?_eq_some hgc)
          | none =>
            rw [hgc, Option.map_none'] at hget
            exact absurd hget (by simp)
      obtain ⟨f, hfmem, hfpath, _⟩ := theFiles_key_mem_paths fs hpf
      refine ⟨p, n, rfl, hfileOf, ?_, ?_⟩
      · rw [fileNode_get, if_pos ⟨f, hfmem, hfpath⟩]
      · have he₀get : assocGet? (NodeId.file p, NodeId.decl p n)
            (parse fs).edges = some Label.defined_in := by
          rw [definedInEdge_get, hpf, Option.some_bind,
            if_pos ⟨rfl, hdecls⟩]
        refine filter_eq_singleton_of
          (List.Nodup.of_map _ (parse_edges_keysNodup fs))
          (mem_of_assocGet?_eq_some he₀get) ?_
        intro x hx
        rw [decide_eq_true_eq]
        constructor
        · rintro ⟨hlab, htgt⟩
          obtain ⟨⟨u, v⟩, l⟩ := x
          simp only at hlab htgt
          subst hlab
          subst htgt
          have hxget := edge_mem_get fs hx
          cases u with
          | decl q₁ f₁ =>
            rw [callsEdge_get] at hxget
            cases hqf : assocGet? q₁ (theFiles fs) with
            | none =>
              rw [hqf, Option.none_bind] at hxget
              exact absurd hxget (by simp)
            | some pf₁ =>
              rw [hqf, Option.some_bind] at hxget
              by_cases hc : p = q₁ ∧ hasCallTo pf₁ f₁ n = true ∧
                  (assocGet? n pf₁.functions).isSome = true
              · rw [if_pos hc] at hxget
                exact absurd (Option.some.inj hxget) (by simp)
              · rw [if_neg hc] at hxget
                exact absurd hxget (by simp)
          | file q₁ =>
            rw [definedInEdge_get] at hxget
            cases hqf : assocGet? q₁ (theFiles fs) with
            | none =>
              rw [hqf, Option.none_bind] at hxget
              exact absurd hxget (by simp)
            | some pf₁ =>
              rw [hqf, Option.some_bind] at hxget
              by_cases hc : p = q₁ ∧ (n ∈ pf₁.classes.map Prod.fst ∨
                  n ∈ pf₁.functions.map Prod.fst)
              · obtain ⟨hq, _⟩ := hc
                subst hq
                rfl
              · rw [if_neg hc] at hxget
                exact absurd hxget (by simp)
        · intro hx₀
          rw [hx₀]
          simp

/-- Witness for C5 at a single-function file. -/
theorem C5_witness :
    ∃ p n, (NodeId.decl "a.py" "f") = NodeId.decl p n ∧
      (funcAttrs "a.py" "f" ⟨1, 2, [], "", []⟩).fileOf = some p ∧
      assocGet? (NodeId.file p) (parse exC5fs).nodes =
        some (NodeAttrs.file p) ∧
      (parse exC5fs).edges.filter (fun e =>
          decide (e.2 = Label.defined_in ∧
            e.1.2 = NodeId.decl "a.py" "f")) =
        [((NodeId.file p, NodeId.decl "a.py" "f"), Label.defined_in)] :=
  C5_defined_in_unique exC5fs (NodeId.decl "a.py" "f")
    (funcAttrs "a.py" "f" ⟨1, 2, [], "", []⟩) rfl rfl

/-- Claim C2, counterexample: with two discovered files sharing the
basename `util.py`, the target of `main.py`'s `file_import` edge follows
the discovery order, so two enumerations of the same files with the same
contents and relative paths build different edge sets. -/
theorem C2_counterexample :
    exC2fsA.map SourceFile.path ≠ exC2fsB.map SourceFile.path ∧
    exC2fsA.Perm exC2fsB ∧
    assocGet? (NodeId.file "main.py", NodeId.file "a/util.py")
      (parse exC2fsA).edges = some Label.file_import ∧
    assocGet? (NodeId.file "main.py", NodeId.file "a/util.py")
      (parse exC2fsB).edges = none :=
  ⟨by decide, List.Perm.swap _ _ _, by decide, by decide⟩

/-- Claim C2 (amended: provided no two discovered files share a basename —
under a shared basename the first-match import resolution is
order-dependent, as the counterexample shows): two enumerations of the
same files with the same contents and root-relative paths build graphs
with pointwise-equal node lookups (hence identical node sets with
identical attributes) and pointwise-equal edge lookups (hence identical
labeled edge sets). -/
theorem C2_order_independence (fs₁ fs₂ : List SourceFile)
    (hperm : fs₁.Perm fs₂)
    (hbase : (fs₁.map fun f => basename f.path).Nodup) :
    (∀ id, assocGet? id (parse fs₁).nodes =
      assocGet? id (parse fs₂).nodes) ∧
    (∀ k, assocGet? k (parse fs₁).edges =
      assocGet? k (parse fs₂).edges) := by
  have hbmap : ((fs₁.map SourceFile.path).map basename).Nodup := by
    rw [List.map_map]
    exact hbase
  have hpaths₁ : (fs₁.map SourceFile.path).Nodup :=
    List.Nodup.of_map basename hbmap
  have hread : ∀ p, readFile? fs₁ p = readFile? fs₂ p := by
    intro p
    rw [readFile?, readFile?]
    refine find?_congr_of_unique (fun x => hperm.mem_iff) ?_
    intro a ha b hb hpa hpb
    refine nodup_map_inj hpaths₁ a ha b hb ?_
    have hpa' : a.path = p := by simpa [beq_iff_eq] using hpa
    have hpb' : b.path = p := by simpa [beq_iff_eq] using hpb
    rw [hpa', hpb']
  have hrec : ∀ p, fileRecord fs₁ p = fileRecord fs₂ p := by
    intro p
    simp only [fileRecord, hread]
  have hget : ∀ p, assocGet? p (theFiles fs₁) =
      assocGet? p (theFiles fs₂) := by
    intro p
    rw [theFiles_get, theFiles_get, hrec]
  have hkeys : ∀ q, q ∈ (theFiles fs₁).map Prod.fst ↔
      q ∈ (theFiles fs₂).map Prod.fst := by
    intro q
    constructor <;> intro hq <;> by_contra hq₂
    · rw [← assocGet?_eq_none_iff (α := ParsedFile)] at hq₂
      rw [← hget] at hq₂
      rw [assocGet?_eq_none_iff] at hq₂
      exact hq₂ hq
    · rw [← assocGet?_eq_none_iff (α := ParsedFile)] at hq₂
      rw [hget] at hq₂
      rw [assocGet?_eq_none_iff] at hq₂
      exact hq₂ hq
  have hkeypath : ∀ q, q ∈ (theFiles fs₁).map Prod.fst →
      ∃ f ∈ fs₁, f.path = q := by
    intro q hq
    cases hv : assocGet? q (theFiles fs₁) with
    | none =>
      rw [assocGet?_eq_none_iff] at hv
      exact absurd hq hv
    | some pf =>
      obtain ⟨f, hf, hfp, _⟩ := theFiles_key_mem_paths fs₁ hv
      exact ⟨f, hf, hfp⟩
  have hfind : ∀ m, findModuleFile (theFiles fs₁) m =
      findModuleFile (theFiles fs₂) m := by
    intro m
    rw [findModuleFile, findModuleFile]
    refine find?_congr_of_unique hkeys ?_
    intro a ha b hb hpa hpb
    obtain ⟨fa, hfa, hfap⟩ := hkeypath a ha
    obtain ⟨fb, hfb, hfbp⟩ := hkeypath b hb
    have hba : basename fa.path = m ++ ".py" := by
      rw [hfap]
      simpa [beq_iff_eq] using hpa
    have hbb : basename fb.path = m ++ ".py" := by
      rw [hfbp]
      simpa [beq_iff_eq] using hpb
    have hfab : fa = fb :=
      nodup_map_inj hbase fa hfa fb hfb (by rw [hba, hbb])
    rw [← hfap, ← hfbp, hfab]
  refine ⟨?_, ?_⟩
  · intro id
    cases id with
    | file p =>
      rw [fileNode_get, fileNode_get]
      have hiff : (∃ f ∈ fs₁, f.path = p) ↔ ∃ f ∈ fs₂, f.path = p := by
        constructor <;> rintro ⟨f, hf, hp⟩
        · exact ⟨f, hperm.mem_iff.mp hf, hp⟩
        · exact ⟨f, hperm.mem_iff.mpr hf, hp⟩
      by_cases hex : ∃ f ∈ fs₁, f.path = p
      · rw [if_pos hex, if_pos (hiff.mp hex)]
      · rw [if_neg hex, if_neg fun hc => hex (hiff.mpr hc)]
    | decl p n => rw [declNode_get, declNode_get, hget]
  · intro k
    obtain ⟨u, v⟩ := k
    cases u with
    | file p =>
      cases v with
      | decl p₂ n => rw [definedInEdge_get, definedInEdge_get, hget]
      | file q =>
        rw [fileImportEdge_get, fileImportEdge_get, hget]
        cases hpf : assocGet? p (theFiles fs₂) with
        | none => rfl
        | some pf =>
          rw [Option.some_bind, Option.some_bind]
          simp only [hfind]
    | decl p f =>
      cases v with
      | file q => rw [declFileEdge_get, declFileEdge_get]
      | decl p₂ g => rw [callsEdge_get, callsEdge_get, hget]

/-- Witness for the amended C2 at a two-file repository with distinct
basenames, enumerated in both orders. -/
theorem C2_witness :
    (∀ id, assocGet? id (parse exC2wA).nodes =
      assocGet? id (parse exC2wB).nodes) ∧
    (∀ k, assocGet? k (parse exC2wA).edges =
      assocGet? k (parse exC2wB).edges) :=
  C2_order_independence exC2wA exC2wB (List.Perm.swap _ _ _) (by decide)

/-- Claim C4, counterexample: a file declaring a top-level class `Foo` and
a top-level function `Foo` makes the build write node `a.py::Foo` twice
with different attribute sets — the function node overwrites the class
node — so the build trace is not write-once. -/
theorem C4_counterexample :
    writeOnce (parseOps exC4fs) = false ∧
    assocGet? (NodeId.decl "a.py" "Foo") (parse exC4fs).nodes =
      some (funcAttrs "a.py" "Foo" ⟨3, 4, [], "", []⟩) :=
  ⟨by decide, by decide⟩

theorem writeOnce_of_forall {ops : List Op}
    (h : ∀ x ∈ ops, ∀ y ∈ ops, compatOp x y = true) :
    writeOnce ops = true := by
  induction ops with
  | nil => rfl
  | cons op rest ih =>
    rw [writeOnce, Bool.and_eq_true]
    constructor
    · rw [List.all_eq_true]
      intro y hy
      exact h op (List.mem_cons_self _ _) y (List.mem_cons_of_mem _ hy)
    · exact ih fun x hx y hy =>
        h x (List.mem_cons_of_mem _ hx) y (List.mem_cons_of_mem _ hy)

/-- Every edge write of the build carries the label determined by the
shapes of its endpoints. -/
theorem parseOps_edge_label (fs : List SourceFile) :
    ∀ u v l, Op.addEdge u v l ∈ parseOps fs →
      l = edgeLabelSpec (u, v) := by
  intro u v l hop
  rw [parseOps_eq] at hop
  rcases List.mem_append.mp hop with hop | hop
  · rcases List.mem_append.mp hop with hop | hop
    · obtain ⟨f, _, heq⟩ := mem_collectOps.mp hop
      exact Op.noConfusion heq
    · obtain ⟨e, he, hope⟩ := List.mem_flatMap.mp hop
      rcases mem_fileBuildOps.mp hope with ⟨c, hc, h | h⟩ |
        ⟨e₁, he₁, h | h⟩ | ⟨m, hm, r, hr, h⟩
      · exact Op.noConfusion h
      · injection h with hu hv hl
        subst hu
        subst hv
        subst hl
        rfl
      · exact Op.noConfusion h
      · injection h with hu hv hl
        subst hu
        subst hv
        subst hl
        rfl
      · injection h with hu hv hl
        subst hu
        subst hv
        subst hl
        rfl
  · obtain ⟨e, _, hope⟩ := List.mem_flatMap.mp hop
    obtain ⟨e₁, _, t, _, _, heq⟩ := mem_fileCallOps.mp hope
    injection heq with hu hv hl
    subst hu
    subst hv
    subst hl
    rfl

/-- Under the no-shadowing hypothesis, every node write of the build
carries the attribute set `nodeValSpec` determines from the final file
records. -/
theorem parseOps_node_value (fs : List SourceFile)
    (hdisj : ∀ e ∈ theFiles fs, ∀ n ∈ e.2.classes.map Prod.fst,
      n ∉ e.2.functions.map Prod.fst) :
    ∀ id a, Op.addNode id a ∈ parseOps fs → a = nodeValSpec fs id := by
  intro id a hop
  rw [parseOps_eq] at hop
  rcases List.mem_append.mp hop with hop | hop
  · rcases List.mem_append.mp hop with hop | hop
    · obtain ⟨f, _, heq⟩ := mem_collectOps.mp hop
      injection heq with hi ha
      subst hi
      subst ha
      rfl
    · obtain ⟨⟨q, pf⟩, he, hope⟩ := List.mem_flatMap.mp hop
      have hqpf : assocGet? q (theFiles fs) = some pf :=
        assocGet?_eq_some_of_mem (theFiles_keysNodup fs) he
      obtain ⟨hfn, hcn⟩ := theFiles_tablesNodup fs hqpf
      rcases mem_fileBuildOps.mp hope with ⟨⟨c₁, c₂⟩, hc, h | h⟩ |
        ⟨⟨g₁, g₂⟩, he₁, h | h⟩ | ⟨m, _, r, _, h⟩
      · injection h with hi ha
        subst hi
        subst ha
        have hgc : assocGet? c₁ pf.classes = some c₂ :=
          assocGet?_eq_some_of_mem hcn hc
        have hgf : assocGet? c₁ pf.functions = none := by
          rw [assocGet?_eq_none_iff]
          exact hdisj ⟨q, pf⟩ he c₁ (mem_keys_of_assocGet?_eq_some hgc)
        simp [nodeValSpec, hqpf, hgf, hgc]
      · exact Op.noConfusion h
      · injection h with hi ha
        subst hi
        subst ha
        have hgf : assocGet? g₁ pf.functions = some g₂ :=
          assocGet?_eq_some_of_mem hfn he₁
        simp [nodeValSpec, hqpf, hgf]
      · exact Op.noConfusion h
      · exact Op.noConfusion h
  · obtain ⟨e, _, hope⟩ := List.mem_flatMap.mp hop
    obtain ⟨e₁, _, t, _, _, heq⟩ := mem_fileCallOps.mp hope
    exact Op.noConfusion heq

/-- Claim C4 (amended: provided no file declares a top-level class and a
top-level function with the same name — with such a pair the function
node's attributes overwrite the class node's, as the counterexample
shows): the build trace is write-once — every repeated write to a node id
stores the same attribute set and every repeated write to an edge key
stores the same label, and the op language has no removals at all. -/
theorem C4_write_once (fs : List SourceFile)
    (hdisj : ∀ e ∈ theFiles fs, ∀ n ∈ e.2.classes.map Prod.fst,
      n ∉ e.2.functions.map Prod.fst) :
    writeOnce (parseOps fs) = true := by
  refine writeOnce_of_forall ?_
  intro x hx y hy
  cases x with
  | addNode i a =>
    cases y with
    | addNode j b =>
      simp only [compatOp, decide_eq_true_eq]
      intro hij
      subst hij
      rw [parseOps_node_value fs hdisj i a hx,
        parseOps_node_value fs hdisj i b hy]
    | addEdge u v l => rfl
  | addEdge u v l =>
    cases y with
    | addNode j b => rfl
    | addEdge u₁ v₁ l₁ =>
      simp only [compatOp, decide_eq_true_eq]
      intro huv
      rw [parseOps_edge_label fs u v l hx,
        parseOps_edge_label fs u₁ v₁ l₁ hy, huv]

/-- Witness for the amended C4 at a file declaring a class and a function
with distinct names. -/
theorem C4_witness : writeOnce (parseOps exC4w) = true :=
  C4_write_once exC4w (by decide)

end CodeNav
